import Mathlib

/-!
Verification of the layout-to-text alignment pipeline.

Shallow embedding conventions:
* Python `str` is Lean `String`; all text processing (splitting on
  whitespace, joining, trimming) is implemented structurally over
  `List Char` so that every definition evaluates by kernel reduction.
* Python `float` is idealized as `ℚ`; `math.sqrt` (the only irrational
  operation) is passed in as a parameter `fsqrt : ℚ → ℚ` whose contract
  (zero at zero, positive on positives) is stated as hypotheses.
* Python `dict` is an association list with unique keys; assignment
  replaces in place, iteration is insertion order.
* External collaborators (the OCR word-box provider, the embedding
  service, the vision-model call) are parameters of the functions that
  invoke them, mirroring their call signatures.
* The fuzzy similarity scores come from the rapidfuzz library
  (`fuzz.ratio` = normalized indel similarity, `fuzz.token_set_ratio`);
  they are embedded by their published algorithm, on a 0–100 `ℚ` scale.
-/

set_option allowUnsafeReducibility true
attribute [local semireducible] Rat.mul Rat.add Rat.sub Rat.inv Rat.div Rat.neg Rat.normalize Rat.ofScientific

/-! ### Character and string utilities (Python str semantics) -/

def isWs (c : Char) : Bool := c == ' ' || c == '\t' || c == '\n' || c == '\r'

def splitWsAux : List Char → List Char → List (List Char)
  | [], acc => if acc = [] then [] else [acc.reverse]
  | c :: cs, acc =>
    if isWs c then
      (if acc = [] then splitWsAux cs [] else acc.reverse :: splitWsAux cs [])
    else splitWsAux cs (c :: acc)

/-- Python `s.split()`: split on runs of whitespace, no empty tokens. -/
def splitWs (s : List Char) : List (List Char) := splitWsAux s []

/-- Join token lists with a single space, as Python `" ".join`. -/
def joinSp : List (List Char) → List Char
  | [] => []
  | [t] => t
  | t :: ts => t ++ ' ' :: joinSp ts

/-- Python `" ".join` on strings. -/
def strJoinSp (l : List String) : String := String.mk (joinSp (l.map String.data))

def trimChars (l : List Char) : List Char :=
  ((l.dropWhile isWs).reverse.dropWhile isWs).reverse

/-- Python `s.strip()`. -/
def trimStr (s : String) : String := String.mk (trimChars s.data)

/-- Python `s.rstrip()`. -/
def rstripStr (s : String) : String := String.mk (s.data.reverse.dropWhile isWs).reverse

def strToLower (s : String) : String := String.mk (s.data.map Char.toLower)

def strEndsWithColon (s : String) : Bool :=
  match s.data.reverse with
  | [] => false
  | c :: _ => c == ':'

/-- Code-point lexicographic order on token character lists (Python str `<`). -/
def tokLt : List Char → List Char → Bool
  | [], [] => false
  | [], _ :: _ => true
  | _ :: _, [] => false
  | a :: as, b :: bs =>
    if a.toNat < b.toNat then true
    else if b.toNat < a.toNat then false
    else tokLt as bs

/-! ### Stable sorting and dedup (Python `sorted` / `set`) -/

def dedupKeepAux {α : Type} [DecidableEq α] (seen : List α) : List α → List α
  | [] => []
  | x :: xs => if x ∈ seen then dedupKeepAux seen xs else x :: dedupKeepAux (x :: seen) xs

/-- Deduplicate keeping first occurrences (models `set(...)` where only
membership or a subsequent sort matters). -/
def dedupKeep {α : Type} [DecidableEq α] (l : List α) : List α := dedupKeepAux [] l

def idxOfAux {α : Type} [DecidableEq α] (x : α) : List α → Nat → Option Nat
  | [], _ => none
  | y :: ys, n => if y = x then some n else idxOfAux x ys (n + 1)

/-- Python `list.index` wrapped in try/except: first index or none. -/
def idxOf? {α : Type} [DecidableEq α] (x : α) (l : List α) : Option Nat := idxOfAux x l 0

/-! ### Python dict as an association list with unique keys -/

abbrev Dict (α : Type) := List (String × α)

def dget {α : Type} : Dict α → String → Option α
  | [], _ => none
  | e :: t, k => if e.1 = k then some e.2 else dget t k

/-- Python `d[k] = v`: replace in place if present, else append. -/
def dinsert {α : Type} : Dict α → String → α → Dict α
  | [], k, v => [(k, v)]
  | e :: t, k, v => if e.1 = k then (k, v) :: t else e :: dinsert t k v

def dmodify {α : Type} : Dict α → String → (α → α) → Dict α
  | [], _, _ => []
  | e :: t, k, f => if e.1 = k then (k, f e.2) :: t else e :: dmodify t k f

/-- Python `del d[k]` (unique keys assumed). -/
def derase {α : Type} (d : Dict α) (k : String) : Dict α :=
  d.filter (fun e => ¬ (e.1 = k))

def dkeys {α : Type} (d : Dict α) : List String := d.map Prod.fst

/-! ### rapidfuzz similarity scores -/

/-- Longest common subsequence with explicit fuel (structural, so the kernel
can evaluate it); fuel `|s| + |t|` always suffices. -/
def lcsF : Nat → List Char → List Char → Nat
  | 0, _, _ => 0
  | _ + 1, [], _ => 0
  | _ + 1, _ :: _, [] => 0
  | fuel + 1, a :: as, b :: bs =>
    if a = b then 1 + lcsF fuel as bs
    else max (lcsF fuel as (b :: bs)) (lcsF fuel (a :: as) bs)

def lcs (s t : List Char) : Nat := lcsF (s.length + t.length) s t

/-- rapidfuzz `fuzz.ratio`: normalized indel similarity on a 0–100 scale,
`200·lcs(s,t)/(|s|+|t|)`, with the empty-vs-empty case scoring 100. -/
def indelSim (s t : List Char) : ℚ :=
  if s.length + t.length = 0 then 100
  else (200 * (lcs s t : ℚ)) / ((s.length : ℚ) + (t.length : ℚ))

def tokLe (a b : List Char) : Bool := !(tokLt b a)

/-- rapidfuzz `fuzz.token_set_ratio` (0–100 scale): compare sorted unique
token sets; 100 when one set contains the other (and the intersection is
non-empty); otherwise the best of the indel ratio on the joined differences
and the two section ratios. -/
def tokenSetSim (s t : List Char) : ℚ :=
  let tokensA := List.insertionSort (fun a b => tokLe a b = true) (dedupKeep (splitWs s))
  let tokensB := List.insertionSort (fun a b => tokLe a b = true) (dedupKeep (splitWs t))
  if tokensA = [] ∨ tokensB = [] then 0
  else
    let sect := tokensA.filter (fun w => w ∈ tokensB)
    let diffAB := tokensA.filter (fun w => w ∉ tokensB)
    let diffBA := tokensB.filter (fun w => w ∉ tokensA)
    if sect ≠ [] ∧ (diffAB = [] ∨ diffBA = []) then 100
    else
      let abJ := joinSp diffAB
      let baJ := joinSp diffBA
      let sectLen : Nat := (joinSp sect).length
      let bonus : Nat := if sectLen = 0 then 0 else 1
      let res := indelSim abJ baJ
      let abRatio : ℚ :=
        if sectLen + (sectLen + bonus + abJ.length) = 0 then 100
        else 100 - 100 * ((bonus : ℚ) + (abJ.length : ℚ)) /
          ((sectLen : ℚ) + ((sectLen : ℚ) + (bonus : ℚ) + (abJ.length : ℚ)))
      let baRatio : ℚ :=
        if sectLen + (sectLen + bonus + baJ.length) = 0 then 100
        else 100 - 100 * ((bonus : ℚ) + (baJ.length : ℚ)) /
          ((sectLen : ℚ) + ((sectLen : ℚ) + (bonus : ℚ) + (baJ.length : ℚ)))
      max res (max abRatio baRatio)

/-! ### Data model (models.py) -/

structure BBox where
  x : Int
  y : Int
  w : Int
  h : Int
deriving DecidableEq, Repr, Inhabited

inductive Font where
  | hebrew
  | rashi
deriving DecidableEq, Repr

structure Line where
  line_id : String
  block_id : String
  bbox : BBox
  order_hint : ℚ
  tess_text_weak : Option String := none
  vlm_text : Option String := none
  vlm_conf : Option ℚ := none
  is_span_end : Bool := false
  rashi_tess_text : Option String := none
deriving DecidableEq, Repr

structure Block where
  block_id : String
  bbox : BBox
  line_ids : List String := []
  font : Option Font := none
  assigned_stream_id : Option String := none
  assign_score : Option ℚ := none
deriving DecidableEq, Repr

-- `Stream` in models.py; renamed because Lean core already declares `Stream`.
structure TStream where
  stream_id : String
  title : String
  lang : String := "he"
  seg_refs : List String := []
  seg_texts : List String := []
deriving DecidableEq, Repr

structure SegmentSpan where
  stream_id : String
  seg_ref : String
  start_line_id : String
  end_line_id : String
  end_cut_x : Option Int := none
  score : Option ℚ := none
  flags : List String := []
deriving DecidableEq, Repr

/-- The pipeline-state fields read or written by the validation gate.
Absent keys and empty lists are identified (both are falsy to the
`state.get(...)` truthiness tests in validate.py). -/
structure PipelineState where
  unknown_block_ids : List String := []
  boundary_cut_failures : List (String × String) := []
  segment_spans : List SegmentSpan := []
  validation_flags : List String := []
  needs_human_review : Bool := false
deriving DecidableEq, Repr

/-! ### align.py -/

/-- align.py `normalize_hebrew`: collapse whitespace. -/
def normalize_hebrew (text : String) : String := String.mk (joinSp (splitWs text.data))

/-- align.py `score_text`: token-set similarity of the normalized texts on a
0–1 scale, 0 when either text is empty (falsy). -/
def score_text (a b : String) : ℚ :=
  if a = "" ∨ b = "" then 0
  else tokenSetSim (normalize_hebrew a).data (normalize_hebrew b).data / 100

/-- `sorted(..., key=lambda lid: lines[lid].order_hint)` for
`sorted(set(line_ids))` and `sorted(blk.line_ids)`.  The dict `lines` is
modelled as a total map over the ids in use. -/
def sortByOrderHint (lines : String → Line) (l : List String) : List String :=
  List.insertionSort (fun a b => (lines a).order_hint ≤ (lines b).order_hint) l

/-! #### assign_blocks_to_streams -/

/-- The per-stream prefix strings: first `stream_prefix_segs` segment texts
joined by spaces. -/
def streamPrefixes (streams : Dict TStream) (stream_prefix_segs : Nat) : Dict String :=
  streams.map (fun e => (e.1, strJoinSp (e.2.seg_texts.take stream_prefix_segs)))

/-- The best-scoring stream scan (first stream wins ties; score starts at -1). -/
def bestStream (prefixes : Dict String) (blockText : String) : Option String × ℚ :=
  prefixes.foldl
    (fun b e =>
      let sc := score_text blockText e.2
      if sc > b.2 then (some e.1, sc) else b)
    (none, -1)

/-- The first `m` lines of the block in reading order, their `vlm_text`
joined and stripped. -/
def blockPrefixText (lines : String → Line) (m : Nat) (blk : Block) : String :=
  trimStr (strJoinSp (((sortByOrderHint lines blk.line_ids).take m).map
    (fun lid => ((lines lid).vlm_text).getD "")))

/-- One iteration of the `assign_blocks_to_streams` loop body: the updated
block and whether its id goes to the `unknown` list. -/
def assignOne (lines : String → Line) (prefixes : Dict String) (thresh : ℚ)
    (block_prefix_lines : Nat) (blk : Block) : Block × Bool :=
  if blk.font = some Font.rashi then
    ({ blk with assigned_stream_id := none, assign_score := none }, true)
  else
    let blockText := blockPrefixText lines block_prefix_lines blk
    let best := bestStream prefixes blockText
    if best.1 = none ∨ best.2 < thresh then
      ({ blk with assigned_stream_id := none,
                  assign_score := if best.2 ≥ 0 then some best.2 else none }, true)
    else
      ({ blk with assigned_stream_id := best.1, assign_score := some best.2 }, false)

/-- align.py `assign_blocks_to_streams`: returns the mutated block map, the
`unknown` block-id list and the `unassigned` stream-id list.  Defaults:
`thresh = 0.25`, `block_prefix_lines = 10`, `stream_prefix_segs = 3`. -/
def assign_blocks_to_streams (blocks : Dict Block) (lines : String → Line)
    (streams : Dict TStream) (thresh : ℚ) (block_prefix_lines stream_prefix_segs : Nat) :
    Dict Block × List String × List String :=
  let prefixes := streamPrefixes streams stream_prefix_segs
  let processed := blocks.map (fun e => (e.1, assignOne lines prefixes thresh block_prefix_lines e.2))
  let blocks' : Dict Block := processed.map (fun e => (e.1, e.2.1))
  let unknown := (processed.filter (fun e => e.2.2)).map Prod.fst
  let unassigned := (streams.map Prod.fst).filter
    (fun sid => ¬ blocks'.any (fun e => e.2.assigned_stream_id = some sid))
  (blocks', unknown, unassigned)

/-! #### the lexical aligner -/

/-- `" ".join(line_texts[p:q+1]).strip()`. -/
def concatSlice (lineTexts : List String) (p q : Nat) : String :=
  trimStr (strJoinSp ((lineTexts.drop p).take (q + 1 - p)))

/-- The candidate scan `for q in range(p, stop)` keeping the first strictly
best score (`best_q, best_sc` start at `None, -1.0`). -/
def bestCandLex (lineTexts : List String) (seg_text : String) (p stop : Nat) :
    Option Nat × ℚ :=
  (List.range' p (stop - p)).foldl
    (fun b q =>
      let sc := score_text (concatSlice lineTexts p q) seg_text
      if sc > b.2 then (some q, sc) else b)
    (none, -1)

/-- The main loop of `align_segments_to_lines_for_stream` over the zipped
`(seg_ref, seg_text)` list with cursor `p`. -/
def lexGo (sid : String) (lineTexts : List String) (ordered : List String)
    (window : Nat) (min_score : ℚ) : List (String × String) → Nat → List SegmentSpan
  | [], _ => []
  | (seg_ref, seg_text) :: rest, p =>
    if ordered.length ≤ p then []
    else
      let best := bestCandLex lineTexts seg_text p (min ordered.length (p + window))
      if best.1 = none ∨ best.2 < min_score then
        { stream_id := sid, seg_ref := seg_ref,
          start_line_id := ordered.getD p "", end_line_id := ordered.getD p "",
          score := if best.2 ≥ 0 then some best.2 else none,
          flags := ["align_failed"] } ::
          lexGo sid lineTexts ordered window min_score rest (min (p + 1) ordered.length)
      else
        { stream_id := sid, seg_ref := seg_ref,
          start_line_id := ordered.getD p "", end_line_id := ordered.getD (best.1.getD 0) "",
          score := some best.2,
          flags := [] } ::
          lexGo sid lineTexts ordered window min_score rest (best.1.getD 0)

/-- align.py `align_segments_to_lines_for_stream` (lexical windowed scan).
Defaults: `window = 10`, `min_score = 0.20`. -/
def align_segments_to_lines_for_stream (stream : TStream) (line_ids : List String)
    (lines : String → Line) (window : Nat) (min_score : ℚ) : List SegmentSpan :=
  if stream.seg_refs = [] ∨ line_ids = [] then []
  else
    let ordered := sortByOrderHint lines (dedupKeep line_ids)
    let lineTexts := ordered.map (fun lid => normalize_hebrew (((lines lid).vlm_text).getD ""))
    let segTexts := stream.seg_texts.map normalize_hebrew
    lexGo stream.stream_id lineTexts ordered window min_score
      (stream.seg_refs.zip segTexts) 0

/-! ### embeddings.py cosine similarity -/

def dotQ (a b : List ℚ) : ℚ := (a.zip b).foldl (fun acc p => acc + p.1 * p.2) 0

def normSq (a : List ℚ) : ℚ := a.foldl (fun acc x => acc + x * x) 0

/-- embeddings.py `cosine_similarity`, with `math.sqrt` supplied as `fsqrt`. -/
def cosine_similarity (fsqrt : ℚ → ℚ) (a b : List ℚ) : ℚ :=
  if a = [] ∨ b = [] ∨ a.length ≠ b.length then 0
  else
    let na := fsqrt (normSq a)
    let nb := fsqrt (normSq b)
    if na ≤ 0 ∨ nb ≤ 0 then 0 else dotQ a b / (na * nb)

/-! #### the embedding aligner -/

/-- `mean_emb`: elementwise mean of `line_emb[p..q]` over the dimension count
of `line_emb[0]`. -/
def meanEmb (lineEmb : List (List ℚ)) (p q : Nat) : List ℚ :=
  let n : ℚ := ((q + 1 - p : Nat) : ℚ)
  (List.range (lineEmb.headD []).length).map
    (fun d => ((List.range' p (q + 1 - p)).foldl
       (fun acc i => acc + ((lineEmb.getD i []).getD d 0)) 0) / n)

/-- The candidate scan of the embedding aligner. -/
def bestCandEmb (fsqrt : ℚ → ℚ) (lineEmb : List (List ℚ)) (segVec : List ℚ)
    (p stop : Nat) : Option Nat × ℚ :=
  (List.range' p (stop - p)).foldl
    (fun b q =>
      let sc := cosine_similarity fsqrt (meanEmb lineEmb p q) segVec
      if sc > b.2 then (some q, sc) else b)
    (none, -1)

/-- The main loop of `align_segments_to_lines_for_stream_embeddings` with
segment index and cursor `p`. -/
def embGo (fsqrt : ℚ → ℚ) (sid : String) (lineEmb segEmb : List (List ℚ))
    (ordered : List String) (window : Nat) (min_score : ℚ) :
    List (String × String) → Nat → Nat → List SegmentSpan
  | [], _, _ => []
  | (seg_ref, _) :: rest, segIdx, p =>
    if ordered.length ≤ p then []
    else
      let best := bestCandEmb fsqrt lineEmb (segEmb.getD segIdx []) p
        (min ordered.length (p + window))
      if best.1 = none ∨ best.2 < min_score then
        { stream_id := sid, seg_ref := seg_ref,
          start_line_id := ordered.getD p "", end_line_id := ordered.getD p "",
          score := if best.2 ≥ 0 then some best.2 else none,
          flags := ["align_embed_failed"] } ::
          embGo fsqrt sid lineEmb segEmb ordered window min_score rest (segIdx + 1)
            (min (p + 1) ordered.length)
      else
        { stream_id := sid, seg_ref := seg_ref,
          start_line_id := ordered.getD p "", end_line_id := ordered.getD (best.1.getD 0) "",
          score := some best.2,
          flags := ["align_embed"] } ::
          embGo fsqrt sid lineEmb segEmb ordered window min_score rest (segIdx + 1)
            (best.1.getD 0)

/-- align.py `align_segments_to_lines_for_stream_embeddings`, with the
batch embedding call `get_embeddings` supplied as `getEmb` and `math.sqrt`
as `fsqrt`.  Defaults: `window = 15`, `min_score = 0.30`. -/
def align_segments_to_lines_for_stream_embeddings (fsqrt : ℚ → ℚ)
    (getEmb : List String → List (List ℚ)) (stream : TStream) (line_ids : List String)
    (lines : String → Line) (window : Nat) (min_score : ℚ) : List SegmentSpan :=
  if stream.seg_refs = [] ∨ line_ids = [] then []
  else
    let ordered := sortByOrderHint lines (dedupKeep line_ids)
    let lineTexts := ordered.map (fun lid => normalize_hebrew (((lines lid).vlm_text).getD ""))
    let segTexts := stream.seg_texts.map normalize_hebrew
    let lineEmb := getEmb lineTexts
    let segEmb := getEmb segTexts
    embGo fsqrt stream.stream_id lineEmb segEmb ordered window min_score
      (stream.seg_refs.zip stream.seg_texts) 0 0

/-! ### cuts.py -/

structure CropRect where
  x0 : Int
  y0 : Int
  x1 : Int
  y1 : Int
deriving DecidableEq, Repr

/-- cuts.py `last_word`: last whitespace token of the normalized text, or "". -/
def last_word (seg_text : String) : String :=
  String.mk ((splitWs (normalize_hebrew seg_text).data).getLastD [])

/-- The crop rectangle of a padded bbox clamped to the page image. -/
def padCrop (pageW pageH : Int) (bb : BBox) (pad : Int) : CropRect :=
  { x0 := max 0 (bb.x - pad), y0 := max 0 (bb.y - pad),
    x1 := min pageW (bb.x + bb.w + pad), y1 := min pageH (bb.y + bb.h + pad) }

/-- The best word-box scan of `compute_boundary_cuts_for_spans`
(`best_bbox, best_sc` start at `None, -1.0`; strict improvement). -/
def bestWordBox (wordBoxes : List (String × BBox)) (lwN : String) : Option BBox × ℚ :=
  wordBoxes.foldl
    (fun b wb =>
      let sc := indelSim (normalize_hebrew wb.1).data lwN.data
      if sc > b.2 then (some wb.2, sc) else b)
    (none, -1)

/-- The per-span body of `compute_boundary_cuts_for_spans`: the updated span
and the optional failure record.  `tessWords` models word-level OCR of the
crop (`tesseract_word_boxes_for_crop`), in crop-local coordinates. -/
def cutOne (pageW pageH : Int) (tessWords : CropRect → List (String × BBox))
    (streams : Dict TStream) (lines : Dict Line) (word_match_thresh : ℚ)
    (sp : SegmentSpan) : SegmentSpan × Option (String × String) :=
  match dget streams sp.stream_id with
  | none => ({ sp with flags := sp.flags ++ ["missing_stream"] }, some (sp.stream_id, sp.seg_ref))
  | some st =>
    match idxOf? sp.seg_ref st.seg_refs with
    | none => ({ sp with flags := sp.flags ++ ["missing_seg_ref"] }, some (sp.stream_id, sp.seg_ref))
    | some idx =>
      let seg_text := st.seg_texts.getD idx ""
      let lw := last_word seg_text
      if lw = "" then
        ({ sp with flags := sp.flags ++ ["no_last_word"] }, some (sp.stream_id, sp.seg_ref))
      else
        match dget lines sp.end_line_id with
        | none => ({ sp with flags := sp.flags ++ ["missing_end_line"] }, some (sp.stream_id, sp.seg_ref))
        | some end_line =>
          let crop := padCrop pageW pageH end_line.bbox 6
          let best := bestWordBox (tessWords crop) (normalize_hebrew lw)
          if best.1 = none ∨ best.2 < word_match_thresh then
            ({ sp with flags := sp.flags ++ ["cut_failed"] }, some (sp.stream_id, sp.seg_ref))
          else
            ({ sp with end_cut_x := some (crop.x0 + (best.1.getD default).x),
                       flags := sp.flags ++ ["cut_ok"] }, none)

/-- cuts.py `compute_boundary_cuts_for_spans`: processes every span in order,
mutating it in place (returned as a new list) and collecting failures.
Default `word_match_thresh = 60.0`. -/
def compute_boundary_cuts_for_spans (pageW pageH : Int)
    (tessWords : CropRect → List (String × BBox)) (spans : List SegmentSpan)
    (streams : Dict TStream) (lines : Dict Line) (word_match_thresh : ℚ) :
    List SegmentSpan × List (String × String) :=
  match spans with
  | [] => ([], [])
  | sp :: rest =>
    let r := cutOne pageW pageH tessWords streams lines word_match_thresh sp
    let rec' := compute_boundary_cuts_for_spans pageW pageH tessWords rest streams lines word_match_thresh
    (r.1 :: rec'.1, r.2.toList ++ rec'.2)

/-! ### tess_layout.py -/

def bboxIntersectsVertically (a b : BBox) : Bool :=
  !(decide (a.x + a.w ≤ b.x) || decide (b.x + b.w ≤ a.x))

def bboxIntersectsHorizontally (a b : BBox) : Bool :=
  !(decide (a.y + a.h ≤ b.y) || decide (b.y + b.h ≤ a.y))

def lexLtII (p q : Int × Int) : Bool :=
  decide (p.1 < q.1) || (decide (p.1 = q.1) && decide (p.2 < q.2))

/-- Python `min(l, key=...)` with a pair key: first element with the
lexicographically least key, none on the empty list. -/
def minByKey {α : Type} (key : α → Int × Int) (l : List α) : Option α :=
  l.foldl
    (fun acc x =>
      match acc with
      | none => some x
      | some a => if lexLtII (key x) (key a) then some x else some a)
    none

def maxIntList : List Int → Int
  | [] => 0
  | x :: xs => xs.foldl max x

/-- The margin-likeness test of `_filter_margin_blocks` (zone membership or
small area; the area threshold `0.002·w·h` is kept exact in `ℚ`). -/
def isMarginLike (pageW pageH marginX marginY : Int) (bb : BBox) : Bool :=
  decide (bb.x < marginX) || decide (bb.x + bb.w > pageW - marginX) ||
  decide (bb.y < marginY) ||
  decide (((bb.w * bb.h : Int) : ℚ) < (2 * (pageW : ℚ) * (pageH : ℚ)) / 1000)

instance : Inhabited Block := ⟨{ block_id := "", bbox := default }⟩

/-- tess_layout.py `_filter_margin_blocks` = `filter_margin_blocks` (the
public wrapper only delegates).  `int(0.12*…)`/`int(0.10*…)` truncations are
exact integer divisions here because the page extent is positive past the
guard. -/
def filter_margin_blocks (blocks : Dict Block) (lines : Dict Line) :
    Dict Block × Dict Line :=
  if blocks.length ≤ 1 then (blocks, lines)
  else
    let blockList := blocks.map Prod.snd
    let pageW := maxIntList (blockList.map (fun b => b.bbox.x + b.bbox.w))
    let pageH := maxIntList (blockList.map (fun b => b.bbox.y + b.bbox.h))
    if pageW ≤ 0 ∨ pageH ≤ 0 then (blocks, lines)
    else
      let topBandH := (12 * pageH) / 100
      let marginX := (12 * pageW) / 100
      let marginY := (10 * pageH) / 100
      let topCandidates0 := blockList.filter (fun b => decide (b.bbox.y < topBandH))
      let topCandidates := if topCandidates0 = [] then blockList else topCandidates0
      let leftTop := (minByKey (fun b => (b.bbox.x, b.bbox.y)) topCandidates).getD default
      let rightTop := (minByKey (fun b => (-(b.bbox.x + b.bbox.w), b.bbox.y)) topCandidates).getD default
      let toRemove := (blocks.filter
        (fun e =>
          isMarginLike pageW pageH marginX marginY e.2.bbox &&
          ((bboxIntersectsVertically e.2.bbox leftTop.bbox ||
            bboxIntersectsHorizontally e.2.bbox leftTop.bbox) ||
           (bboxIntersectsVertically e.2.bbox rightTop.bbox ||
            bboxIntersectsHorizontally e.2.bbox rightTop.bbox)))).map Prod.fst
      let newBlocks0 := blocks.filter (fun e => ¬ e.1 ∈ toRemove)
      let newLines := lines.filter (fun e => ¬ e.2.block_id ∈ toRemove)
      let newBlocks := newBlocks0.map
        (fun e => (e.1, { e.2 with line_ids := e.2.line_ids.filter (fun lid => (dget newLines lid).isSome) }))
      (newBlocks, newLines)

/-- One row of `pytesseract.image_to_data` output (the fields used). -/
structure TessRow where
  level : Int
  block_num : Int
  par_num : Int
  line_num : Int
  left : Int
  top : Int
  width : Int
  height : Int
deriving DecidableEq, Repr

def rowBox (r : TessRow) : BBox := { x := r.left, y := r.top, w := r.width, h := r.height }

def bidOf (r : TessRow) : String := "b" ++ toString r.block_num

def lidOf (r : TessRow) : String :=
  "l" ++ toString r.block_num ++ "_" ++ toString r.par_num ++ "_" ++ toString r.line_num

/-- tess_layout.py `_order_hint`: `y * 1_000_000 + x`. -/
def orderHintOf (b : BBox) : ℚ := ((b.y * 1000000 + b.x : Int) : ℚ)

/-- First pass of `extract_blocks_lines`: level-2 rows create blocks with
empty line lists. -/
def extractBlocksPass (rows : List TessRow) : Dict Block :=
  rows.foldl
    (fun blocks r =>
      if r.level = 2 then
        dinsert blocks (bidOf r) { block_id := bidOf r, bbox := rowBox r, line_ids := [] }
      else blocks)
    []

/-- Second pass of `extract_blocks_lines`: level-4 rows create lines,
synthesizing a missing parent block from the line's box. -/
def extractLinesStep (st : Dict Block × Dict Line) (r : TessRow) : Dict Block × Dict Line :=
  if r.level = 4 then
    let bid := bidOf r
    let lid := lidOf r
    let bbox := rowBox r
    let ln : Line := { line_id := lid, block_id := bid, bbox := bbox, order_hint := orderHintOf bbox }
    let lines' := dinsert st.2 lid ln
    let blocks' :=
      if (dget st.1 bid).isSome then st.1
      else dinsert st.1 bid { block_id := bid, bbox := bbox, line_ids := [] }
    (dmodify blocks' bid (fun b => { b with line_ids := b.line_ids ++ [lid] }), lines')
  else st

/-- tess_layout.py `extract_blocks_lines`, over the OCR rows. -/
def extract_blocks_lines (rows : List TessRow) : Dict Block × Dict Line :=
  rows.foldl extractLinesStep (extractBlocksPass rows, [])

/-! ### rashi.py -/

/-- rashi.py `_split_points_for_line`: `sorted(set(...))` of `line.x + box.x`
for every word whose rstripped text ends in a colon; the word boxes of the
line's crop are supplied by the OCR parameter. -/
def split_points_for_line (ln : Line) (word_boxes : List (String × BBox)) : List Int :=
  List.insertionSort (fun a b => a ≤ b)
    (dedupKeep (word_boxes.filterMap
      (fun wb => if strEndsWithColon (rstripStr wb.1) then some (ln.bbox.x + wb.2.x) else none)))

/-- The segment list of one split line: edges zipped, then stable-sorted by
descending left edge (`key=lambda seg: -seg[0]`). -/
def splitSegments (ln : Line) (split_xs : List Int) : List (Int × Int) :=
  let segments := (ln.bbox.x :: split_xs).zip (split_xs ++ [ln.bbox.x + ln.bbox.w])
  List.insertionSort (fun a b : Int × Int => b.1 ≤ a.1) segments

def segId (lid : String) (idx : Nat) : String := lid ++ "_s" ++ toString idx

/-- The synthetic sub-segment Line created for segment `idx` of a split line. -/
def segLine (blockId : String) (ln : Line) (idx : Nat) (seg : Int × Int) : Line :=
  { line_id := segId ln.line_id idx, block_id := blockId,
    bbox := { x := seg.1, y := ln.bbox.y, w := seg.2 - seg.1, h := ln.bbox.h },
    order_hint := ln.order_hint + idx * (1 / 10000 : ℚ),
    is_span_end := true }

/-- One segment insertion of the split loop: insert the synthetic line and
append its id to `new_line_ids`. -/
def segInsStep (blockId : String) (ln : Line) (lid : String)
    (acc : Dict Line × List String) (si : Nat × (Int × Int)) : Dict Line × List String :=
  (dinsert acc.1 (segId lid si.1) (segLine blockId ln si.1 si.2), acc.2 ++ [segId lid si.1])

/-- Processing of one line id inside a rashi block: state is the line map
and the accumulated `new_line_ids`.  `lid` is keyed into the map; a split
inserts the segment lines and deletes the original. -/
def processRashiLine (pageW pageH : Int) (wordsFor : CropRect → List (String × BBox))
    (blockId : String) (st : Dict Line × List String) (lid : String) :
    Dict Line × List String :=
  match dget st.1 lid with
  | none => st
  | some ln =>
    let crop := padCrop pageW pageH ln.bbox 2
    let split_xs := split_points_for_line ln (wordsFor crop)
    if split_xs = [] then (st.1, st.2 ++ [lid])
    else
      let segs := splitSegments ln split_xs
      let st' : Dict Line × List String := segs.enum.foldl (segInsStep blockId ln lid) st
      (derase st'.1 lid, st'.2)

/-- The per-block body of `split_rashi_lines`: non-rashi blocks pass
through; a rashi block's line list is rebuilt by `processRashiLine`. -/
def splitBlockStep (pageW pageH : Int) (wordsFor : CropRect → List (String × BBox))
    (st : Dict Block × Dict Line) (e : String × Block) : Dict Block × Dict Line :=
  if e.2.font ≠ some Font.rashi then (st.1 ++ [e], st.2)
  else
    let r := e.2.line_ids.foldl (processRashiLine pageW pageH wordsFor e.2.block_id) (st.2, [])
    (st.1 ++ [(e.1, { e.2 with line_ids := r.2 })], r.1)

/-- rashi.py `split_rashi_lines`: every line of every rashi block is split at
colon-word left edges; mutates the block's line list and the line map. -/
def split_rashi_lines (pageW pageH : Int) (wordsFor : CropRect → List (String × BBox))
    (blocks : Dict Block) (lines : Dict Line) : Dict Block × Dict Line :=
  blocks.foldl (splitBlockStep pageW pageH wordsFor) ([], lines)

/-! ### vlm_client.py -/

/-- The retry loop of `vlm_classify_block_font` for one block: attempts are
numbered from 1; first success short-circuits, otherwise the last error is
recorded (`None` when zero attempts were made). -/
def tryAttempts (attempt : String → Nat → Except String String) (bid : String)
    (lastErr : Option String) : Nat → Nat → Except (Option String) String
  | 0, _ => Except.error lastErr
  | n + 1, k =>
    match attempt bid k with
    | Except.ok raw => Except.ok raw
    | Except.error e => tryAttempts attempt bid (some e) n (k + 1)

/-- vlm_client.py `vlm_classify_block_font` over block ids, with the OpenAI
call supplied as `attempt` (block id and attempt number to response text or
error).  The for-else branch of the source records the default label and
then raises when an error was seen; raising aborts the whole call. -/
def vlm_classify_block_font (attempt : String → Nat → Except String String)
    (items : List String) (maxRetries : Nat) : Except String (Dict Font) :=
  match items with
  | [] => Except.ok []
  | bid :: rest =>
    match tryAttempts attempt bid none maxRetries 1 with
    | Except.ok raw =>
      match vlm_classify_block_font attempt rest maxRetries with
      | Except.ok out =>
        Except.ok (dinsert [] bid (if strToLower (trimStr raw) = "rashi" then Font.rashi else Font.hebrew) ++ out)
      | Except.error e => Except.error e
    | Except.error lastErr =>
      match lastErr with
      | some e => Except.error ("OpenAI block font failed for " ++ bid ++ ": " ++ e)
      | none =>
        match vlm_classify_block_font attempt rest maxRetries with
        | Except.ok out => Except.ok (dinsert [] bid Font.hebrew ++ out)
        | Except.error e => Except.error e

/-! ### validate.py and the graph routing -/

/-- validate.py `validate_state`: pure flag aggregation.  The alignment
check is exact list membership of the string "align_failed". -/
def validate_state (state : PipelineState) : PipelineState :=
  let flags :=
    (if state.unknown_block_ids ≠ [] then ["unknown_blocks"] else []) ++
    (if state.boundary_cut_failures ≠ [] then ["boundary_cut_failures"] else []) ++
    (if state.segment_spans.any (fun sp => sp.flags.contains "align_failed") then ["align_failures"] else [])
  { state with validation_flags := flags, needs_human_review := decide (0 < flags.length) }

/-- graph.py `route_after_validate`. -/
def route_after_validate (state : PipelineState) : String :=
  if state.needs_human_review then "pause_for_hitl" else "persist"

/-! ## Claims -/

/-! ### C1: the validation gate and alignment-failure flags -/

/-- A final state whose only failure signal is an embedding-aligner failure
flag on one span. -/
def c1Span : SegmentSpan :=
  { stream_id := "s0", seg_ref := "r1", start_line_id := "l1", end_line_id := "l1",
    score := some (1/10), flags := ["align_embed_failed"] }

def c1State : PipelineState := { segment_spans := [c1Span] }

/-- C1 (counterexample): a state with a span flagged `align_embed_failed`
(and no other failure) does NOT get `needs_human_review`; `validate_state`
adds no validation flag and the run routes to persist, because the gate
tests exact membership of the string "align_failed" only. -/
theorem C1_embed_failed_not_escalated :
    (∃ sp ∈ c1State.segment_spans, "align_embed_failed" ∈ sp.flags) ∧
    (validate_state c1State).needs_human_review = false ∧
    (validate_state c1State).validation_flags = [] ∧
    route_after_validate (validate_state c1State) = "persist" := by decide

/-- C1 (amended): if any segment span carries the lexical aligner's
`align_failed` flag, then `validate_state` sets `needs_human_review`, adds
the `align_failures` validation flag, and the run routes to
`pause_for_hitl`; the embedding aligner's `align_embed_failed` flag does
not escalate (see the counterexample). -/
theorem C1_lexical_align_failures_escalate (state : PipelineState)
    (h : ∃ sp ∈ state.segment_spans, "align_failed" ∈ sp.flags) :
    (validate_state state).needs_human_review = true ∧
    "align_failures" ∈ (validate_state state).validation_flags ∧
    route_after_validate (validate_state state) = "pause_for_hitl" := by
  rcases h with ⟨sp, hsp, hmem⟩
  have hany : (state.segment_spans.any fun sp => sp.flags.contains "align_failed") = true := by
    simp only [List.any_eq_true]
    exact ⟨sp, hsp, by simpa using hmem⟩
  have hflag : "align_failures" ∈ (validate_state state).validation_flags := by
    simp [validate_state, hany]
    exact ⟨sp, hsp, hmem⟩
  have hrev : (validate_state state).needs_human_review = true := by
    have hpos : 0 < (validate_state state).validation_flags.length :=
      List.length_pos.mpr (List.ne_nil_of_mem hflag)
    simp only [validate_state] at hpos ⊢
    exact decide_eq_true hpos
  refine ⟨hrev, hflag, ?_⟩
  simp [route_after_validate, hrev]

/-- A state with one span flagged by the lexical aligner. -/
def c1WitnessSpan : SegmentSpan :=
  { stream_id := "s0", seg_ref := "r1", start_line_id := "l1", end_line_id := "l1",
    flags := ["align_failed"] }

def c1WitnessState : PipelineState := { segment_spans := [c1WitnessSpan] }

theorem C1_lexical_align_failures_escalate_witness :
    (validate_state c1WitnessState).needs_human_review = true ∧
    "align_failures" ∈ (validate_state c1WitnessState).validation_flags ∧
    route_after_validate (validate_state c1WitnessState) = "pause_for_hitl" :=
  C1_lexical_align_failures_escalate c1WitnessState (by decide)

/-! ### C3: the three-segments/five-lines example scenario -/

/-- The five ordered lines of the scenario, with texts "a".."e". -/
def c3lines : String → Line := fun lid =>
  if lid = "l1" then { line_id := "l1", block_id := "b1", bbox := ⟨0,0,10,10⟩, order_hint := 1, vlm_text := some "a" }
  else if lid = "l2" then { line_id := "l2", block_id := "b1", bbox := ⟨0,10,10,10⟩, order_hint := 2, vlm_text := some "b" }
  else if lid = "l3" then { line_id := "l3", block_id := "b1", bbox := ⟨0,20,10,10⟩, order_hint := 3, vlm_text := some "c" }
  else if lid = "l4" then { line_id := "l4", block_id := "b1", bbox := ⟨0,30,10,10⟩, order_hint := 4, vlm_text := some "d" }
  else { line_id := "l5", block_id := "b1", bbox := ⟨0,40,10,10⟩, order_hint := 5, vlm_text := some "e" }

/-- The stream of the scenario: three segments whose texts are exactly the
concatenations of line 1, lines 2–3 and lines 4–5. -/
def c3stream : TStream :=
  { stream_id := "s0", title := "T", seg_refs := ["r1", "r2", "r3"],
    seg_texts := ["a", "b c", "d e"] }

/-- The spans the claim says must come out: [1,1], [2,3], [4,5]. -/
def c3claimed : List SegmentSpan :=
  [{ stream_id := "s0", seg_ref := "r1", start_line_id := "l1", end_line_id := "l1", score := some 1 },
   { stream_id := "s0", seg_ref := "r2", start_line_id := "l2", end_line_id := "l3", score := some 1 },
   { stream_id := "s0", seg_ref := "r3", start_line_id := "l4", end_line_id := "l5", score := some 1 }]

/-- The spans the code actually produces: [1,1], [1,3], [3,5]. -/
def c3actual : List SegmentSpan :=
  [{ stream_id := "s0", seg_ref := "r1", start_line_id := "l1", end_line_id := "l1", score := some 1 },
   { stream_id := "s0", seg_ref := "r2", start_line_id := "l1", end_line_id := "l3", score := some 1 },
   { stream_id := "s0", seg_ref := "r3", start_line_id := "l3", end_line_id := "l5", score := some 1 }]

/-- C3 (counterexample): in the claimed scenario (segment texts exactly the
concatenations of line 1, lines 2–3, lines 4–5), the lexical aligner does
NOT return the spans [1,1],[2,3],[4,5]: the second span starts at line 1,
because after a successful span the cursor stays on its end line (boundary
sharing), so the next span's start line is the previous span's end line. -/
theorem C3_scenario_counterexample :
    c3stream.seg_texts = [strJoinSp ["a"], strJoinSp ["b", "c"], strJoinSp ["d", "e"]] ∧
    align_segments_to_lines_for_stream c3stream ["l1", "l2", "l3", "l4", "l5"] c3lines 10 0.20 ≠
      c3claimed := by decide

/-- C3 (amended): in that scenario the lexical aligner returns exactly the
spans [1,1], [1,3], [3,5], each with score 1.0 and no failure flags — each
successor span starts at its predecessor's end line, so [2,3] and [4,5]
cannot be produced. -/
theorem C3_scenario_actual_spans :
    align_segments_to_lines_for_stream c3stream ["l1", "l2", "l3", "l4", "l5"] c3lines 10 0.20 =
      c3actual ∧
    ∀ sp ∈ c3actual, sp.score = some 1 ∧ sp.flags = [] := by decide

/-! ### C4: margin-filter idempotence -/

/-- Five blocks on a 800x510 page: a tiny top-left seed "S", two body
blocks "M" and "N" in the top band, the rightmost block "R" and a small
left block "B". -/
def c4blocks : Dict Block :=
  [("S", { block_id := "S", bbox := ⟨0, 0, 10, 10⟩ }),
   ("M", { block_id := "M", bbox := ⟨200, 55, 400, 300⟩ }),
   ("N", { block_id := "N", bbox := ⟨120, 55, 60, 200⟩ }),
   ("R", { block_id := "R", bbox := ⟨700, 400, 100, 50⟩ }),
   ("B", { block_id := "B", bbox := ⟨130, 500, 10, 10⟩ })]

/-- C4 (counterexample): the margin filter is NOT idempotent.  On `c4blocks`
the first run removes only the seed "S" (which overlaps its own strip); the
second run then picks "N" as the new left-top seed, whose strip hits the
small block "B", so "B" is additionally removed. -/
theorem C4_margin_filter_not_idempotent :
    (filter_margin_blocks c4blocks []).1.map Prod.fst = ["M", "N", "R", "B"] ∧
    (filter_margin_blocks (filter_margin_blocks c4blocks []).1
        (filter_margin_blocks c4blocks []).2).1.map Prod.fst = ["M", "N", "R"] ∧
    filter_margin_blocks (filter_margin_blocks c4blocks []).1
        (filter_margin_blocks c4blocks []).2 ≠
      filter_margin_blocks c4blocks [] := by decide

/-! ### C8: classifier failure handling -/

/-- C8 (counterexample): when every attempt for a block fails, the call does
NOT continue with a defaulted map: the recorded error is raised and the
whole call returns the failure (the locally defaulted "hebrew" label is
discarded with the local map). -/
theorem C8_exhausted_retries_abort_counterexample :
    vlm_classify_block_font (fun _ _ => Except.error "boom") ["b1"] 3 =
      Except.error "OpenAI block font failed for b1: boom" := by rfl

theorem tryAttempts_all_fail (attempt : String → Nat → Except String String)
    (bid err : String) :
    ∀ (n k : Nat) (lastErr : Option String), 1 ≤ n →
      (∀ j, k ≤ j → j < k + n → attempt bid j = Except.error err) →
      tryAttempts attempt bid lastErr n k = Except.error (some err) := by
  intro n
  induction n with
  | zero => intro k lastErr h1; omega
  | succ m ih =>
    intro k lastErr _ hfail
    simp only [tryAttempts]
    rw [hfail k (le_refl k) (by omega)]
    cases m with
    | zero => simp [tryAttempts]
    | succ m' =>
      exact ih (k + 1) (some err) (by omega) (fun j hj1 hj2 => hfail j (by omega) (by omega))

/-- C8 (amended): when the script classifier's external call fails on every
retry attempt for a block (at least one attempt made), the code records the
deterministic "hebrew" default in its local output map but then raises the
recorded error, so the call aborts with an error naming the block instead
of continuing; the default label never reaches the caller. -/
theorem C8_classifier_failure_defaults_then_raises
    (attempt : String → Nat → Except String String) (bid : String) (rest : List String)
    (maxRetries : Nat) (err : String) (h1 : 1 ≤ maxRetries)
    (hfail : ∀ k, 1 ≤ k → k ≤ maxRetries → attempt bid k = Except.error err) :
    vlm_classify_block_font attempt (bid :: rest) maxRetries =
      Except.error ("OpenAI block font failed for " ++ bid ++ ": " ++ err) := by
  have h := tryAttempts_all_fail attempt bid err maxRetries 1 none h1
    (fun j hj1 hj2 => hfail j hj1 (by omega))
  simp only [vlm_classify_block_font, h]

theorem C8_classifier_failure_defaults_then_raises_witness :
    vlm_classify_block_font (fun _ _ => Except.error "down") ["b2"] 2 =
      Except.error ("OpenAI block font failed for " ++ "b2" ++ ": " ++ "down") :=
  C8_classifier_failure_defaults_then_raises (fun _ _ => Except.error "down") "b2" [] 2 "down"
    (by decide) (fun _ _ _ => rfl)

/-! ### C2: boundary-cut x position -/

def c2span : SegmentSpan :=
  { stream_id := "s0", seg_ref := "r1", start_line_id := "l1", end_line_id := "l1" }

def c2stream : TStream :=
  { stream_id := "s0", title := "T", seg_refs := ["r1"], seg_texts := ["hello world"] }

def c2line : Line :=
  { line_id := "l1", block_id := "b1", bbox := ⟨100, 50, 200, 20⟩, order_hint := 0 }

/-- OCR finds the segment's last word at the left edge of the padded crop
(crop-local x = 0), i.e. starting inside the 6-pixel pad. -/
def c2words : CropRect → List (String × BBox) := fun _ => [("world", ⟨0, 0, 30, 10⟩)]

/-- C2 (counterexample): `end_cut_x` is `x0 + best_bbox.x` with
`x0 = max(0, end_line.x - 6)` and is not clamped to the line box: with the
best word at crop-local x = 0 the cut lands at 94, strictly left of the end
line's `x = 100`, violating `end_line.x <= end_cut_x`. -/
theorem C2_end_cut_outside_line_counterexample :
    (∃ sp ∈ (compute_boundary_cuts_for_spans 1000 1000 c2words [c2span]
        [("s0", c2stream)] [("l1", c2line)] 60).1,
      "cut_ok" ∈ sp.flags ∧ sp.end_cut_x = some 94) ∧
    c2line.bbox.x = 100 ∧ ¬ ((100 : Int) ≤ 94) := by decide

/-! ### C5: the split partition -/

def c5line : Line :=
  { line_id := "L", block_id := "B", bbox := ⟨100, 0, 50, 10⟩, order_hint := 0 }

def c5block : Block :=
  { block_id := "B", bbox := ⟨100, 0, 50, 10⟩, line_ids := ["L"], font := some Font.rashi }

/-- OCR reports a colon-word near the right edge of the padded crop, at
crop-local x = 53 > line width 50 (the crop is 54 wide: width + 2·pad). -/
def c5words : CropRect → List (String × BBox) := fun _ => [("x:", ⟨53, 0, 1, 1⟩)]

/-- C5 (counterexample): a split point is `line.x + box.x` with `box.x`
crop-local, so a colon-word detected in the pad region yields a split point
beyond `line.x + line.w` (here 153 > 150); the produced first sub-segment
then has NEGATIVE width and lies outside the line's horizontal range, so
the sub-segments do not partition `[line.x, line.x + line.w]`. -/
theorem C5_negative_width_counterexample :
    split_points_for_line c5line (c5words (padCrop 1000 1000 c5line.bbox 2)) = [153] ∧
    (∃ e ∈ (split_rashi_lines 1000 1000 c5words [("B", c5block)] [("L", c5line)]).2,
      e.1 = "L_s0" ∧ e.2.bbox.w < 0 ∧ c5line.bbox.x + c5line.bbox.w < e.2.bbox.x) := by decide

/-! ### C10: cosine similarity guards -/

theorem normSq_foldl_le (l : List ℚ) : ∀ acc : ℚ, acc ≤ l.foldl (fun acc x => acc + x * x) acc := by
  induction l with
  | nil => intro acc; exact le_refl acc
  | cons x xs ih =>
    intro acc
    calc acc ≤ acc + x * x := by nlinarith [mul_self_nonneg x]
    _ ≤ _ := ih (acc + x * x)

theorem normSq_nonneg (a : List ℚ) : 0 ≤ normSq a := normSq_foldl_le a 0

/-- C10: `cosine_similarity` is total and guarded: it returns 0 whenever a
vector is empty, the lengths differ, or either norm is zero (non-positive),
and otherwise returns `dot/(na·nb)` with a provably non-zero denominator.
`fsqrt` is `math.sqrt` restricted to the non-negative rationals actually
passed to it (zero at zero, positive on positives). -/
theorem C10_cosine_similarity_guarded (fsqrt : ℚ → ℚ) (h0 : fsqrt 0 = 0)
    (hpos : ∀ x : ℚ, 0 < x → 0 < fsqrt x) (a b : List ℚ) :
    ((a = [] ∨ b = [] ∨ a.length ≠ b.length ∨ normSq a = 0 ∨ normSq b = 0) →
      cosine_similarity fsqrt a b = 0) ∧
    (a ≠ [] → b ≠ [] → a.length = b.length → normSq a ≠ 0 → normSq b ≠ 0 →
      cosine_similarity fsqrt a b = dotQ a b / (fsqrt (normSq a) * fsqrt (normSq b)) ∧
      fsqrt (normSq a) * fsqrt (normSq b) ≠ 0) := by
  constructor
  · intro h
    by_cases hg : a = [] ∨ b = [] ∨ a.length ≠ b.length
    · simp only [cosine_similarity]
      rw [if_pos hg]
    · have hnorm : normSq a = 0 ∨ normSq b = 0 := by tauto
      simp only [cosine_similarity]
      rw [if_neg hg, if_pos]
      rcases hnorm with hn | hn
      · left; rw [hn, h0]
      · right; rw [hn, h0]
  · intro ha hb hlen hna hnb
    have hra : 0 < normSq a := lt_of_le_of_ne (normSq_nonneg a) (Ne.symm hna)
    have hrb : 0 < normSq b := lt_of_le_of_ne (normSq_nonneg b) (Ne.symm hnb)
    have hfa := hpos _ hra
    have hfb := hpos _ hrb
    have hg1 : ¬ (a = [] ∨ b = [] ∨ a.length ≠ b.length) := by
      push_neg
      exact ⟨ha, hb, hlen⟩
    have hg2 : ¬ (fsqrt (normSq a) ≤ 0 ∨ fsqrt (normSq b) ≤ 0) := by
      push_neg
      exact ⟨hfa, hfb⟩
    constructor
    · simp only [cosine_similarity]
      rw [if_neg hg1, if_neg hg2]
    · exact ne_of_gt (mul_pos hfa hfb)

def c10fsqrt : ℚ → ℚ := fun x => if 0 < x then 1 else 0

theorem C10_cosine_similarity_guarded_witness :
    cosine_similarity c10fsqrt [1] [] = 0 ∧
    (cosine_similarity c10fsqrt [2] [3] =
        dotQ [2] [3] / (c10fsqrt (normSq [2]) * c10fsqrt (normSq [3])) ∧
      c10fsqrt (normSq [2]) * c10fsqrt (normSq [3]) ≠ 0) :=
  ⟨(C10_cosine_similarity_guarded c10fsqrt (by decide)
      (fun x hx => by simp [c10fsqrt, hx]) [1] []).1 (by decide),
   (C10_cosine_similarity_guarded c10fsqrt (by decide)
      (fun x hx => by simp [c10fsqrt, hx]) [2] [3]).2
      (by decide) (by decide) (by decide) (by decide) (by decide)⟩

/-! ### C7: degenerate failure spans and minimal cursor advance -/

/-- C7: in both aligner strategies, whenever the best candidate score is
below the strategy minimum or no candidate exists, the emitted span is
degenerate (start line = end line = the current cursor line), it is tagged
with the strategy's failure flag (`align_failed` / `align_embed_failed`),
and the cursor advances by exactly one line, not to the best candidate. -/
theorem C7_failure_step_degenerate_and_advances_one :
    (∀ (sid : String) (lineTexts ordered : List String) (window : Nat) (min_score : ℚ)
       (seg_ref seg_text : String) (rest : List (String × String)) (p : Nat),
       p < ordered.length →
       ((bestCandLex lineTexts seg_text p (min ordered.length (p + window))).1 = none ∨
        (bestCandLex lineTexts seg_text p (min ordered.length (p + window))).2 < min_score) →
       lexGo sid lineTexts ordered window min_score ((seg_ref, seg_text) :: rest) p =
         { stream_id := sid, seg_ref := seg_ref,
           start_line_id := ordered.getD p "", end_line_id := ordered.getD p "",
           score := if (bestCandLex lineTexts seg_text p (min ordered.length (p + window))).2 ≥ 0
             then some (bestCandLex lineTexts seg_text p (min ordered.length (p + window))).2
             else none,
           flags := ["align_failed"] } ::
           lexGo sid lineTexts ordered window min_score rest (p + 1)) ∧
    (∀ (fsqrt : ℚ → ℚ) (sid : String) (lineEmb segEmb : List (List ℚ))
       (ordered : List String) (window : Nat) (min_score : ℚ)
       (seg_ref seg_text : String) (rest : List (String × String)) (segIdx p : Nat),
       p < ordered.length →
       ((bestCandEmb fsqrt lineEmb (segEmb.getD segIdx []) p (min ordered.length (p + window))).1 = none ∨
        (bestCandEmb fsqrt lineEmb (segEmb.getD segIdx []) p (min ordered.length (p + window))).2 < min_score) →
       embGo fsqrt sid lineEmb segEmb ordered window min_score ((seg_ref, seg_text) :: rest) segIdx p =
         { stream_id := sid, seg_ref := seg_ref,
           start_line_id := ordered.getD p "", end_line_id := ordered.getD p "",
           score := if (bestCandEmb fsqrt lineEmb (segEmb.getD segIdx []) p (min ordered.length (p + window))).2 ≥ 0
             then some (bestCandEmb fsqrt lineEmb (segEmb.getD segIdx []) p (min ordered.length (p + window))).2
             else none,
           flags := ["align_embed_failed"] } ::
           embGo fsqrt sid lineEmb segEmb ordered window min_score rest (segIdx + 1) (p + 1)) := by
  constructor
  · intro sid lineTexts ordered window min_score seg_ref seg_text rest p hp hfail
    have hmin : min (p + 1) ordered.length = p + 1 := Nat.min_eq_left (Nat.succ_le_of_lt hp)
    simp only [lexGo]
    rw [if_neg (not_le.mpr hp), if_pos hfail, hmin]
  · intro fsqrt sid lineEmb segEmb ordered window min_score seg_ref seg_text rest segIdx p hp hfail
    have hmin : min (p + 1) ordered.length = p + 1 := Nat.min_eq_left (Nat.succ_le_of_lt hp)
    simp only [embGo]
    rw [if_neg (not_le.mpr hp), if_pos hfail, hmin]

def c7fsqrt : ℚ → ℚ := fun _ => 0

theorem C7_failure_step_degenerate_and_advances_one_witness :
    (lexGo "s" ["x"] ["l1"] 10 0.20 [("r", "y")] 0 =
      { stream_id := "s", seg_ref := "r",
        start_line_id := ["l1"].getD 0 "", end_line_id := ["l1"].getD 0 "",
        score := if (bestCandLex ["x"] "y" 0 (min ["l1"].length (0 + 10))).2 ≥ 0
          then some (bestCandLex ["x"] "y" 0 (min ["l1"].length (0 + 10))).2
          else none,
        flags := ["align_failed"] } :: lexGo "s" ["x"] ["l1"] 10 0.20 [] (0 + 1)) ∧
    (embGo c7fsqrt "s" [[1]] [[1]] ["l1"] 15 0.30 [("r", "y")] 0 0 =
      { stream_id := "s", seg_ref := "r",
        start_line_id := ["l1"].getD 0 "", end_line_id := ["l1"].getD 0 "",
        score := if (bestCandEmb c7fsqrt [[1]] ([[1]].getD 0 []) 0 (min ["l1"].length (0 + 15))).2 ≥ 0
          then some (bestCandEmb c7fsqrt [[1]] ([[1]].getD 0 []) 0 (min ["l1"].length (0 + 15))).2
          else none,
        flags := ["align_embed_failed"] } :: embGo c7fsqrt "s" [[1]] [[1]] ["l1"] 15 0.30 [] (0 + 1) (0 + 1)) :=
  ⟨C7_failure_step_degenerate_and_advances_one.1 "s" ["x"] ["l1"] 10 0.20 "r" "y" [] 0
      (by decide) (by decide),
   C7_failure_step_degenerate_and_advances_one.2 c7fsqrt "s" [[1]] [[1]] ["l1"] 15 0.30 "r" "y" [] 0 0
      (by decide) (by decide)⟩

/-! ### C6: stream-assignment invariants -/

/-- C6: after `assign_blocks_to_streams`, (1) every block with a non-null
`assigned_stream_id` carries an `assign_score` at least the threshold, and
(2) every commentary-script (rashi) block, and every block whose best
prefix score is below the threshold, is left with a null assignment and its
id appears in the returned unknown list. -/
theorem C6_assign_invariants (blocks : Dict Block) (lines : String → Line)
    (streams : Dict TStream) (thresh : ℚ) (block_prefix_lines stream_prefix_segs : Nat) :
    (∀ e ∈ (assign_blocks_to_streams blocks lines streams thresh block_prefix_lines stream_prefix_segs).1,
       e.2.assigned_stream_id ≠ none →
       ∃ sc, e.2.assign_score = some sc ∧ thresh ≤ sc) ∧
    (∀ e ∈ blocks,
       (e.2.font = some Font.rashi ∨
        (bestStream (streamPrefixes streams stream_prefix_segs)
          (blockPrefixText lines block_prefix_lines e.2)).2 < thresh) →
       (assignOne lines (streamPrefixes streams stream_prefix_segs) thresh block_prefix_lines e.2).1.assigned_stream_id = none ∧
       (e.1, (assignOne lines (streamPrefixes streams stream_prefix_segs) thresh block_prefix_lines e.2).1) ∈
         (assign_blocks_to_streams blocks lines streams thresh block_prefix_lines stream_prefix_segs).1 ∧
       e.1 ∈ (assign_blocks_to_streams blocks lines streams thresh block_prefix_lines stream_prefix_segs).2.1) := by
  constructor
  · intro e he hne
    simp only [assign_blocks_to_streams, List.map_map, List.mem_map] at he
    obtain ⟨b, hb, rfl⟩ := he
    simp only [Function.comp] at hne ⊢
    simp only [assignOne] at hne ⊢
    by_cases hf : b.2.font = some Font.rashi
    · rw [if_pos hf] at hne ⊢
      simp at hne
    · rw [if_neg hf] at hne ⊢
      by_cases hc : (bestStream (streamPrefixes streams stream_prefix_segs)
          (blockPrefixText lines block_prefix_lines b.2)).1 = none ∨
          (bestStream (streamPrefixes streams stream_prefix_segs)
            (blockPrefixText lines block_prefix_lines b.2)).2 < thresh
      · rw [if_pos hc] at hne ⊢
        simp at hne
      · rw [if_neg hc] at hne ⊢
        exact ⟨_, rfl, not_lt.mp (fun hlt => hc (Or.inr hlt))⟩
  · intro e he hcond
    have hassign : (assignOne lines (streamPrefixes streams stream_prefix_segs) thresh block_prefix_lines e.2).2 = true ∧
        (assignOne lines (streamPrefixes streams stream_prefix_segs) thresh block_prefix_lines e.2).1.assigned_stream_id = none := by
      simp only [assignOne]
      by_cases hf : e.2.font = some Font.rashi
      · rw [if_pos hf]
        exact ⟨rfl, rfl⟩
      · rw [if_neg hf]
        have hc : (bestStream (streamPrefixes streams stream_prefix_segs)
            (blockPrefixText lines block_prefix_lines e.2)).1 = none ∨
            (bestStream (streamPrefixes streams stream_prefix_segs)
              (blockPrefixText lines block_prefix_lines e.2)).2 < thresh := by
          rcases hcond with h | h
          · exact absurd h hf
          · exact Or.inr h
        rw [if_pos hc]
        exact ⟨rfl, rfl⟩
    refine ⟨hassign.2, ?_, ?_⟩
    · simp only [assign_blocks_to_streams, List.map_map]
      exact List.mem_map.mpr ⟨e, he, rfl⟩
    · simp only [assign_blocks_to_streams]
      refine List.mem_map.mpr
        ⟨(e.1, assignOne lines (streamPrefixes streams stream_prefix_segs) thresh block_prefix_lines e.2), ?_, rfl⟩
      refine List.mem_filter.mpr ⟨List.mem_map.mpr ⟨e, he, rfl⟩, ?_⟩
      simpa using hassign.1

def c6lines : String → Line := fun lid =>
  { line_id := lid, block_id := "bh", bbox := ⟨0, 0, 10, 10⟩, order_hint := 1, vlm_text := some "aaa bbb" }

def c6streams : Dict TStream :=
  [("s0", { stream_id := "s0", title := "T", seg_refs := ["r1"], seg_texts := ["aaa bbb"] })]

def c6hebBlock : Block :=
  { block_id := "bh", bbox := ⟨0, 0, 10, 10⟩, line_ids := ["x1"], font := some Font.hebrew }

def c6rashiBlock : Block :=
  { block_id := "br", bbox := ⟨0, 20, 10, 10⟩, line_ids := [], font := some Font.rashi }

def c6blocks : Dict Block := [("bh", c6hebBlock), ("br", c6rashiBlock)]

/-- The "bh" entry as `assign_blocks_to_streams` rewrites it (score 1). -/
def c6hebAssigned : Block :=
  { block_id := "bh", bbox := ⟨0, 0, 10, 10⟩, line_ids := ["x1"], font := some Font.hebrew,
    assigned_stream_id := some "s0", assign_score := some 1 }

theorem C6_assign_invariants_witness :
    (∃ sc, c6hebAssigned.assign_score = some sc ∧ (0.25 : ℚ) ≤ sc) ∧
    ((assignOne c6lines (streamPrefixes c6streams 3) 0.25 10 c6rashiBlock).1.assigned_stream_id = none ∧
     ("br", (assignOne c6lines (streamPrefixes c6streams 3) 0.25 10 c6rashiBlock).1) ∈
       (assign_blocks_to_streams c6blocks c6lines c6streams 0.25 10 3).1 ∧
     "br" ∈ (assign_blocks_to_streams c6blocks c6lines c6streams 0.25 10 3).2.1) :=
  ⟨(C6_assign_invariants c6blocks c6lines c6streams 0.25 10 3).1 ("bh", c6hebAssigned)
      (by decide) (by decide),
   (C6_assign_invariants c6blocks c6lines c6streams 0.25 10 3).2 ("br", c6rashiBlock)
      (by decide) (Or.inl (by decide))⟩

/-- C4 (amended): the margin filter only removes: each application's block
keys and line keys are a subset of its input's, so repeated application
shrinks monotonically — but it is NOT idempotent (see the counterexample);
a second run can remove further blocks. -/
theorem C4_margin_filter_shrinking (blocks : Dict Block) (lines : Dict Line) :
    dkeys (filter_margin_blocks blocks lines).1 ⊆ dkeys blocks ∧
    dkeys (filter_margin_blocks blocks lines).2 ⊆ dkeys lines := by
  constructor
  · intro a ha
    simp only [filter_margin_blocks] at ha
    split at ha
    · exact ha
    · split at ha
      · exact ha
      · simp only [dkeys] at ha ⊢
        obtain ⟨e, he, rfl⟩ := List.mem_map.mp ha
        obtain ⟨e0, he0, rfl⟩ := List.mem_map.mp he
        exact List.mem_map.mpr ⟨e0, (List.mem_filter.mp he0).1, rfl⟩
  · intro a ha
    simp only [filter_margin_blocks] at ha
    split at ha
    · exact ha
    · split at ha
      · exact ha
      · simp only [dkeys] at ha ⊢
        obtain ⟨e, he, rfl⟩ := List.mem_map.mp ha
        exact List.mem_map.mpr ⟨e, (List.mem_filter.mp he).1, rfl⟩

theorem C4_margin_filter_shrinking_witness :
    dkeys (filter_margin_blocks c4blocks []).1 ⊆ dkeys c4blocks ∧
    dkeys (filter_margin_blocks c4blocks []).2 ⊆ dkeys ([] : Dict Line) :=
  C4_margin_filter_shrinking c4blocks []

/-! ### C2 (amended): the padded window bound -/

theorem foldl_best_mem {α β : Type} (f : α → β) (g : α → ℚ) (l : List α) :
    ∀ acc : Option β × ℚ,
      (l.foldl (fun b x => if g x > b.2 then (some (f x), g x) else b) acc).1 = acc.1 ∨
      ∃ e ∈ l, (l.foldl (fun b x => if g x > b.2 then (some (f x), g x) else b) acc).1 = some (f e) := by
  induction l with
  | nil => intro acc; exact Or.inl rfl
  | cons x xs ih =>
    intro acc
    rcases ih (if g x > acc.2 then (some (f x), g x) else acc) with h | h
    · simp only [List.foldl_cons]
      rw [h]
      by_cases hx : g x > acc.2
      · rw [if_pos hx]
        exact Or.inr ⟨x, List.mem_cons_self x xs, rfl⟩
      · rw [if_neg hx]
        exact Or.inl rfl
    · obtain ⟨e, hel, heq⟩ := h
      exact Or.inr ⟨e, List.mem_cons_of_mem x hel, by simpa using heq⟩

/-- The best word box of the cut scan, when some, is one of the OCR boxes. -/
theorem bestWordBox_mem (wordBoxes : List (String × BBox)) (lwN : String) (bb : BBox)
    (h : (bestWordBox wordBoxes lwN).1 = some bb) : ∃ e ∈ wordBoxes, e.2 = bb := by
  have hf := foldl_best_mem (fun wb : String × BBox => wb.2)
    (fun wb : String × BBox => indelSim (normalize_hebrew wb.1).data lwN.data) wordBoxes (none, -1)
  rcases hf with hf | hf
  · rw [show (bestWordBox wordBoxes lwN).1 =
        (wordBoxes.foldl (fun b x => if (fun wb : String × BBox => indelSim (normalize_hebrew wb.1).data lwN.data) x > b.2
          then (some ((fun wb : String × BBox => wb.2) x), (fun wb : String × BBox => indelSim (normalize_hebrew wb.1).data lwN.data) x) else b)
          ((none : Option BBox), (-1 : ℚ))).1 from rfl] at h
    rw [hf] at h
    exact absurd h (by simp)
  · obtain ⟨e, hel, heq⟩ := hf
    refine ⟨e, hel, ?_⟩
    have : some e.2 = some bb := by
      rw [← heq, ← h]
      rfl
    exact Option.some.inj this

/-- Per-span form of the C2 bound: if the input span does not already carry
`cut_ok` and OCR word boxes lie inside their crop, then a span coming out of
`cutOne` with `cut_ok` has its `end_cut_x` inside the padded window of its
end line, clamped to the page. -/
theorem cutOne_cut_ok_bound (pageW pageH : Int) (tessWords : CropRect → List (String × BBox))
    (streams : Dict TStream) (lines : Dict Line) (thresh : ℚ) (sp : SegmentSpan)
    (hbox : ∀ r : CropRect, ∀ wb ∈ tessWords r, 0 ≤ wb.2.x ∧ wb.2.x ≤ r.x1 - r.x0)
    (hclean : "cut_ok" ∉ sp.flags) :
    "cut_ok" ∈ (cutOne pageW pageH tessWords streams lines thresh sp).1.flags →
    ∃ el, dget lines (cutOne pageW pageH tessWords streams lines thresh sp).1.end_line_id = some el ∧
      ∃ c, (cutOne pageW pageH tessWords streams lines thresh sp).1.end_cut_x = some c ∧
        max 0 (el.bbox.x - 6) ≤ c ∧ c ≤ min pageW (el.bbox.x + el.bbox.w + 6) := by
  intro hflag
  rcases hst : dget streams sp.stream_id with _ | st
  · rw [cutOne, hst] at hflag
    simp at hflag
    exact absurd hflag hclean
  rcases hidx : idxOf? sp.seg_ref st.seg_refs with _ | idx
  · rw [cutOne, hst] at hflag
    simp only [hidx] at hflag
    simp at hflag
    exact absurd hflag hclean
  by_cases hlw : last_word (st.seg_texts.getD idx "") = ""
  · rw [cutOne, hst] at hflag
    simp only [hidx, if_pos hlw] at hflag
    simp at hflag
    exact absurd hflag hclean
  rcases hel : dget lines sp.end_line_id with _ | el
  · rw [cutOne, hst] at hflag
    simp only [hidx, if_neg hlw, hel] at hflag
    simp at hflag
    exact absurd hflag hclean
  by_cases hbest : (bestWordBox (tessWords (padCrop pageW pageH el.bbox 6))
      (normalize_hebrew (last_word (st.seg_texts.getD idx "")))).1 = none ∨
      (bestWordBox (tessWords (padCrop pageW pageH el.bbox 6))
        (normalize_hebrew (last_word (st.seg_texts.getD idx "")))).2 < thresh
  · rw [cutOne, hst] at hflag
    simp only [hidx, if_neg hlw, hel, if_pos hbest] at hflag
    simp at hflag
    exact absurd hflag hclean
  · have hres : (cutOne pageW pageH tessWords streams lines thresh sp).1 =
        { sp with
          end_cut_x := some ((padCrop pageW pageH el.bbox 6).x0 +
            ((bestWordBox (tessWords (padCrop pageW pageH el.bbox 6))
              (normalize_hebrew (last_word (st.seg_texts.getD idx "")))).1.getD default).x),
          flags := sp.flags ++ ["cut_ok"] } := by
      rw [cutOne, hst]
      simp only [hidx, if_neg hlw, hel, if_neg hbest]
    rw [hres]
    refine ⟨el, hel, ?_⟩
    have hnone : (bestWordBox (tessWords (padCrop pageW pageH el.bbox 6))
        (normalize_hebrew (last_word (st.seg_texts.getD idx "")))).1 ≠ none := by
      intro h
      exact hbest (Or.inl h)
    obtain ⟨bb, hbb⟩ := Option.ne_none_iff_exists'.mp hnone
    obtain ⟨e, hemem, hebb⟩ := bestWordBox_mem _ _ bb hbb
    have hx := hbox (padCrop pageW pageH el.bbox 6) e hemem
    refine ⟨(padCrop pageW pageH el.bbox 6).x0 + bb.x, ?_, ?_, ?_⟩
    · rw [hbb]
      rfl
    · have : (padCrop pageW pageH el.bbox 6).x0 = max 0 (el.bbox.x - 6) := rfl
      rw [this]
      have h0 : 0 ≤ bb.x := by rw [← hebb]; exact hx.1
      omega
    · have hx1 : (padCrop pageW pageH el.bbox 6).x1 = min pageW (el.bbox.x + el.bbox.w + 6) := rfl
      have h2 : bb.x ≤ (padCrop pageW pageH el.bbox 6).x1 - (padCrop pageW pageH el.bbox 6).x0 := by
        rw [← hebb]; exact hx.2
      rw [← hx1]
      omega

/-- C2 (amended): for every span given a cut (flag `cut_ok`),
`end_cut_x` lies within the PADDED horizontal window of the span's end
line — `max(0, x-6) ≤ end_cut_x ≤ min(page_w, x+w+6)` — provided OCR word
boxes lie inside their crop; it can fall up to `pad = 6` pixels outside
`[x, x+w]` itself (see the counterexample). -/
theorem C2_end_cut_within_padded_window (pageW pageH : Int)
    (tessWords : CropRect → List (String × BBox)) (spans : List SegmentSpan)
    (streams : Dict TStream) (lines : Dict Line) (thresh : ℚ)
    (hbox : ∀ r : CropRect, ∀ wb ∈ tessWords r, 0 ≤ wb.2.x ∧ wb.2.x ≤ r.x1 - r.x0)
    (hclean : ∀ sp ∈ spans, "cut_ok" ∉ sp.flags) :
    ∀ sp' ∈ (compute_boundary_cuts_for_spans pageW pageH tessWords spans streams lines thresh).1,
      "cut_ok" ∈ sp'.flags →
      ∃ el, dget lines sp'.end_line_id = some el ∧
        ∃ c, sp'.end_cut_x = some c ∧
          max 0 (el.bbox.x - 6) ≤ c ∧ c ≤ min pageW (el.bbox.x + el.bbox.w + 6) := by
  induction spans with
  | nil =>
    intro sp' h
    simp [compute_boundary_cuts_for_spans] at h
  | cons sp rest ih =>
    intro sp' hmem hflag
    rw [compute_boundary_cuts_for_spans] at hmem
    rcases List.mem_cons.mp hmem with heq | hmem'
    · subst heq
      exact cutOne_cut_ok_bound pageW pageH tessWords streams lines thresh sp hbox
        (hclean sp (List.mem_cons_self sp rest)) hflag
    · exact ih (fun s hs => hclean s (List.mem_cons_of_mem sp hs)) sp' hmem' hflag

/-- A crop-respecting OCR stub: reports the word only when the crop is wide
enough to contain its box. -/
def c2wordsW : CropRect → List (String × BBox) := fun r =>
  if 30 ≤ r.x1 - r.x0 then [("world", ⟨0, 0, 30, 10⟩)] else []

/-- The span the refiner produces for the witness input: cut at 94. -/
def c2witSpan : SegmentSpan :=
  { stream_id := "s0", seg_ref := "r1", start_line_id := "l1", end_line_id := "l1",
    end_cut_x := some 94, score := none, flags := ["cut_ok"] }

theorem C2_end_cut_within_padded_window_witness :
    c2witSpan ∈ (compute_boundary_cuts_for_spans 1000 1000 c2wordsW [c2span]
        [("s0", c2stream)] [("l1", c2line)] 60).1 ∧
    "cut_ok" ∈ c2witSpan.flags ∧
    ∃ el, dget [("l1", c2line)] c2witSpan.end_line_id = some el ∧
      ∃ c, c2witSpan.end_cut_x = some c ∧
        max 0 (el.bbox.x - 6) ≤ c ∧ c ≤ min 1000 (el.bbox.x + el.bbox.w + 6) :=
  ⟨by decide, by decide,
   C2_end_cut_within_padded_window 1000 1000 c2wordsW [c2span] [("s0", c2stream)]
     [("l1", c2line)] 60
     (by
       intro r wb hwb
       by_cases h : (30 : Int) ≤ r.x1 - r.x0
       · simp only [c2wordsW, if_pos h, List.mem_singleton] at hwb
         subst hwb
         exact ⟨le_refl 0, le_trans (by norm_num : (0 : Int) ≤ 30) h⟩
       · simp [c2wordsW, if_neg h] at hwb)
     (by decide) c2witSpan (by decide) (by decide)⟩

/-! ### C5 (amended): the partition under in-line split points -/

/-- `isChain lo hi segs`: the segments tile `[lo, hi]` exactly — each starts
where the previous one ended, the first starts at `lo`, the last ends at
`hi` (no gaps and no overlaps at the split points). -/
def isChain : Int → Int → List (Int × Int) → Prop
  | lo, hi, [] => lo = hi
  | lo, hi, s :: ss => s.1 = lo ∧ isChain s.2 hi ss

theorem zip_isChain (hi : Int) : ∀ (pts : List Int) (lo : Int),
    isChain lo hi ((lo :: pts).zip (pts ++ [hi])) := by
  intro pts
  induction pts with
  | nil => intro lo; exact ⟨rfl, rfl⟩
  | cons p ps ih => intro lo; exact ⟨rfl, ih p⟩

theorem zip_chain_bounds (x w : Int) : ∀ (pts : List Int) (lo : Int),
    x ≤ lo → lo ≤ x + w → pts.Sorted (· ≤ ·) → (∀ p ∈ pts, lo ≤ p ∧ p ≤ x + w) →
    ∀ s ∈ (lo :: pts).zip (pts ++ [x + w]), x ≤ s.1 ∧ s.1 ≤ s.2 ∧ s.2 ≤ x + w := by
  intro pts
  induction pts with
  | nil =>
    intro lo hxlo hlohi _ _ s hs
    simp only [List.zip, List.zipWith, List.nil_append] at hs
    rcases List.mem_singleton.mp hs with rfl
    exact ⟨hxlo, hlohi, le_refl _⟩
  | cons p ps ih =>
    intro lo hxlo hlohi hsorted hbounds s hs
    rcases List.mem_cons.mp hs with rfl | hs'
    · exact ⟨hxlo, (hbounds p (List.mem_cons_self p ps)).1, (hbounds p (List.mem_cons_self p ps)).2⟩
    · have hps := List.sorted_cons.mp hsorted
      refine ih p (le_trans hxlo (hbounds p (List.mem_cons_self p ps)).1)
        (hbounds p (List.mem_cons_self p ps)).2 hps.2 ?_ s hs'
      intro q hq
      exact ⟨hps.1 q hq, (hbounds q (List.mem_cons_of_mem p hq)).2⟩

/-- C5 (amended): when every split point of a commentary line lies within
the line's horizontal range `[x, x+w]`, the produced sub-segments are a
permutation (descending reorder) of the adjacent chain
`(x,p1),(p1,p2),…,(pk,x+w)`, which partitions `[x, x+w]` exactly: no gaps,
no overlaps at split points, every sub-segment inside the line with
non-negative width; and each synthetic sub-line's bbox is exactly its
segment.  Split points coming from the pad region break this (see the
counterexample). -/
theorem C5_split_partition_within_line (ln : Line) (word_boxes : List (String × BBox))
    (hne : split_points_for_line ln word_boxes ≠ [])
    (hin : ∀ p ∈ split_points_for_line ln word_boxes,
      ln.bbox.x ≤ p ∧ p ≤ ln.bbox.x + ln.bbox.w) :
    (splitSegments ln (split_points_for_line ln word_boxes)).Perm
      ((ln.bbox.x :: split_points_for_line ln word_boxes).zip
        (split_points_for_line ln word_boxes ++ [ln.bbox.x + ln.bbox.w])) ∧
    isChain ln.bbox.x (ln.bbox.x + ln.bbox.w)
      ((ln.bbox.x :: split_points_for_line ln word_boxes).zip
        (split_points_for_line ln word_boxes ++ [ln.bbox.x + ln.bbox.w])) ∧
    (∀ s ∈ splitSegments ln (split_points_for_line ln word_boxes),
      ln.bbox.x ≤ s.1 ∧ s.1 ≤ s.2 ∧ s.2 ≤ ln.bbox.x + ln.bbox.w) ∧
    (∀ (bid : String) (idx : Nat) (s : Int × Int), (segLine bid ln idx s).bbox =
      { x := s.1, y := ln.bbox.y, w := s.2 - s.1, h := ln.bbox.h }) := by
  have hperm : (splitSegments ln (split_points_for_line ln word_boxes)).Perm
      ((ln.bbox.x :: split_points_for_line ln word_boxes).zip
        (split_points_for_line ln word_boxes ++ [ln.bbox.x + ln.bbox.w])) := by
    simp only [splitSegments]
    exact List.perm_insertionSort _ _
  have hsorted : (split_points_for_line ln word_boxes).Sorted (· ≤ ·) := by
    simp only [split_points_for_line]
    exact List.sorted_insertionSort _ _
  have hxw : ln.bbox.x ≤ ln.bbox.x + ln.bbox.w := by
    obtain ⟨p, hp⟩ := List.exists_mem_of_ne_nil _ hne
    exact le_trans (hin p hp).1 (hin p hp).2
  refine ⟨hperm, zip_isChain _ _ _, ?_, fun _ _ _ => rfl⟩
  intro s hs
  exact zip_chain_bounds ln.bbox.x ln.bbox.w (split_points_for_line ln word_boxes)
    ln.bbox.x (le_refl _) hxw hsorted (hin) s (hperm.mem_iff.mp hs)

def c5witLine : Line :=
  { line_id := "L", block_id := "B", bbox := ⟨0, 0, 10, 10⟩, order_hint := 0 }

theorem C5_split_partition_within_line_witness :
    (splitSegments c5witLine (split_points_for_line c5witLine [("a:", ⟨4, 0, 1, 1⟩)])).Perm
      ((c5witLine.bbox.x :: split_points_for_line c5witLine [("a:", ⟨4, 0, 1, 1⟩)]).zip
        (split_points_for_line c5witLine [("a:", ⟨4, 0, 1, 1⟩)] ++ [c5witLine.bbox.x + c5witLine.bbox.w])) ∧
    isChain c5witLine.bbox.x (c5witLine.bbox.x + c5witLine.bbox.w)
      ((c5witLine.bbox.x :: split_points_for_line c5witLine [("a:", ⟨4, 0, 1, 1⟩)]).zip
        (split_points_for_line c5witLine [("a:", ⟨4, 0, 1, 1⟩)] ++ [c5witLine.bbox.x + c5witLine.bbox.w])) ∧
    (∀ s ∈ splitSegments c5witLine (split_points_for_line c5witLine [("a:", ⟨4, 0, 1, 1⟩)]),
      c5witLine.bbox.x ≤ s.1 ∧ s.1 ≤ s.2 ∧ s.2 ≤ c5witLine.bbox.x + c5witLine.bbox.w) ∧
    (∀ (bid : String) (idx : Nat) (s : Int × Int), (segLine bid c5witLine idx s).bbox =
      { x := s.1, y := c5witLine.bbox.y, w := s.2 - s.1, h := c5witLine.bbox.h }) :=
  C5_split_partition_within_line c5witLine [("a:", ⟨4, 0, 1, 1⟩)] (by decide) (by decide)

/-! ### C9: the Line/Block referential invariant -/

/-- The Line/Block referential invariant: every line's `block_id` names a
block present in the map whose `line_ids` contains the line's key exactly
once, and every id listed by a block is an existing line owned (by
`block_id`) by that block's key. -/
def wfLayout (blocks : Dict Block) (lines : Dict Line) : Prop :=
  (∀ e ∈ lines, ∃ blk, dget blocks e.2.block_id = some blk ∧ blk.line_ids.count e.1 = 1) ∧
  (∀ b ∈ blocks, ∀ lid ∈ b.2.line_ids, ∃ ln, dget lines lid = some ln ∧ ln.block_id = b.1)

/-! #### dict lemmas -/

theorem dget_append_of_some {α : Type} {d1 : Dict α} (d2 : Dict α) {k : String} {v : α}
    (h : dget d1 k = some v) : dget (d1 ++ d2) k = some v := by
  induction d1 with
  | nil => simp [dget] at h
  | cons e t ih =>
    rw [dget] at h
    by_cases he : e.1 = k
    · rw [if_pos he] at h
      simp only [List.cons_append, dget, if_pos he]
      exact h
    · rw [if_neg he] at h
      simp only [List.cons_append, dget, if_neg he]
      exact ih h

theorem dget_append_of_none {α : Type} {d1 : Dict α} (d2 : Dict α) {k : String}
    (h : dget d1 k = none) : dget (d1 ++ d2) k = dget d2 k := by
  induction d1 with
  | nil => simp
  | cons e t ih =>
    rw [dget] at h
    by_cases he : e.1 = k
    · rw [if_pos he] at h
      exact absurd h (by simp)
    · rw [if_neg he] at h
      simp only [List.cons_append, dget, if_neg he]
      exact ih h

theorem dget_singleton_self {α : Type} (k : String) (v : α) : dget [(k, v)] k = some v := by
  simp [dget]

theorem dget_singleton_ne {α : Type} {k k' : String} (v : α) (h : k' ≠ k) :
    dget [(k, v)] k' = none := by
  have h1 : ¬ (k = k') := fun hh => h hh.symm
  simp [dget, h1]

theorem dinsert_of_none {α : Type} {d : Dict α} {k : String} (v : α)
    (h : dget d k = none) : dinsert d k v = d ++ [(k, v)] := by
  induction d with
  | nil => rfl
  | cons e t ih =>
    rw [dget] at h
    by_cases he : e.1 = k
    · rw [if_pos he] at h
      exact absurd h (by simp)
    · rw [if_neg he] at h
      simp only [dinsert, if_neg he, List.cons_append]
      rw [ih h]

theorem dget_dmodify {α : Type} (d : Dict α) (k : String) (f : α → α) (k' : String) :
    dget (dmodify d k f) k' = if k' = k then (dget d k).map f else dget d k' := by
  induction d with
  | nil => by_cases h : k' = k <;> simp [dmodify, dget, h]
  | cons e t ih =>
    by_cases hk : k' = k
    · subst hk
      by_cases he : e.1 = k'
      · simp [dmodify, dget, he]
      · simp [dmodify, dget, he, ih]
    · have h1 : ¬ (k = k') := fun h => hk h.symm
      by_cases he : e.1 = k
      · have h2 : ¬ (e.1 = k') := he ▸ h1
        simp [dmodify, dget, he, h1, h2, hk]
      · simp [dmodify, dget, he, hk, ih]

theorem mem_dmodify {α : Type} {a : String × α} {d : Dict α} {k : String} {f : α → α}
    (h : a ∈ dmodify d k f) : a ∈ d ∨ ∃ v, dget d k = some v ∧ a = (k, f v) := by
  induction d with
  | nil => simp [dmodify] at h
  | cons e t ih =>
    by_cases he : e.1 = k
    · rw [dmodify, if_pos he] at h
      rcases List.mem_cons.mp h with rfl | hmem
      · exact Or.inr ⟨e.2, by rw [dget, if_pos he], rfl⟩
      · exact Or.inl (List.mem_cons_of_mem e hmem)
    · rw [dmodify, if_neg he] at h
      rcases List.mem_cons.mp h with rfl | hmem
      · exact Or.inl (List.mem_cons_self _ _)
      · rcases ih hmem with hin | ⟨v, hv, rfl⟩
        · exact Or.inl (List.mem_cons_of_mem e hin)
        · exact Or.inr ⟨v, by rw [dget, if_neg he]; exact hv, rfl⟩

theorem mem_dinsert {α : Type} {a : String × α} {d : Dict α} {k : String} {v : α}
    (h : a ∈ dinsert d k v) : a = (k, v) ∨ a ∈ d := by
  induction d with
  | nil => simp [dinsert] at h; exact Or.inl h
  | cons e t ih =>
    by_cases he : e.1 = k
    · rw [dinsert, if_pos he] at h
      rcases List.mem_cons.mp h with rfl | hmem
      · exact Or.inl rfl
      · exact Or.inr (List.mem_cons_of_mem e hmem)
    · rw [dinsert, if_neg he] at h
      rcases List.mem_cons.mp h with rfl | hmem
      · exact Or.inr (List.mem_cons_self _ _)
      · rcases ih hmem with h' | h'
        · exact Or.inl h'
        · exact Or.inr (List.mem_cons_of_mem e h')

theorem dget_mem {α : Type} {d : Dict α} {k : String} {v : α} (h : dget d k = some v) :
    (k, v) ∈ d := by
  induction d with
  | nil => simp [dget] at h
  | cons e t ih =>
    rw [dget] at h
    by_cases he : e.1 = k
    · rw [if_pos he] at h
      have : e = (k, v) := by
        cases e
        simp at he h
        exact Prod.ext he h
      rw [← this]
      exact List.mem_cons_self _ _
    · rw [if_neg he] at h
      exact List.mem_cons_of_mem e (ih h)

theorem mem_dget_isSome {α : Type} {d : Dict α} {a : String × α} (h : a ∈ d) :
    (dget d a.1).isSome = true := by
  induction d with
  | nil => simp at h
  | cons e t ih =>
    rcases List.mem_cons.mp h with rfl | hmem
    · simp [dget]
    · rw [dget]
      by_cases he : e.1 = a.1
      · rw [if_pos he]; rfl
      · rw [if_neg he]; exact ih hmem

theorem dget_filter_keep {α : Type} {d : Dict α} {k : String} {v : α} {p : String × α → Bool}
    (h : dget d k = some v) (hp : p (k, v) = true) : dget (d.filter p) k = some v := by
  induction d with
  | nil => simp [dget] at h
  | cons e t ih =>
    rw [dget] at h
    by_cases he : e.1 = k
    · rw [if_pos he] at h
      have hev : e = (k, v) := by
        cases e
        simp only at he h
        simp [he, Option.some.inj h]
      subst hev
      rw [List.filter_cons, if_pos hp]
      simp [dget]
    · rw [if_neg he] at h
      rw [List.filter_cons]
      by_cases hpe : p e = true
      · rw [if_pos hpe, dget, if_neg he]
        exact ih h
      · rw [if_neg hpe]
        exact ih h

theorem dget_filter_none {α : Type} {d : Dict α} {k : String} {p : String × α → Bool}
    (h : dget d k = none) : dget (d.filter p) k = none := by
  induction d with
  | nil => exact h
  | cons e t ih =>
    rw [dget] at h
    by_cases he : e.1 = k
    · rw [if_pos he] at h
      exact absurd h (by simp)
    · rw [if_neg he] at h
      rw [List.filter_cons]
      by_cases hpe : p e = true
      · rw [if_pos hpe, dget, if_neg he]
        exact ih h
      · rw [if_neg hpe]
        exact ih h

theorem dget_map_val {α : Type} (d : Dict α) (g : α → α) (k : String) :
    dget (d.map (fun e => (e.1, g e.2))) k = (dget d k).map g := by
  induction d with
  | nil => simp [dget]
  | cons e t ih =>
    simp only [List.map_cons, dget]
    by_cases he : e.1 = k
    · rw [if_pos he, if_pos he]
      rfl
    · rw [if_neg he, if_neg he]
      exact ih

/-! #### the extract stage -/

/-- The line ids generated by the level-4 rows, in order. -/
def rowLids (rows : List TessRow) : List String :=
  (rows.filter (fun r => r.level == 4)).map lidOf

theorem extractBlocksPass_go (rows : List TessRow) :
    ∀ init : Dict Block, (∀ b ∈ init, b.2.line_ids = []) →
      ∀ b ∈ rows.foldl (fun blocks r =>
        if r.level = 2 then
          dinsert blocks (bidOf r) { block_id := bidOf r, bbox := rowBox r, line_ids := [] }
        else blocks) init,
        b.2.line_ids = [] := by
  induction rows with
  | nil => intro init h b hb; exact h b hb
  | cons r rs ih =>
    intro init h b hb
    simp only [List.foldl_cons] at hb
    by_cases h2 : r.level = 2
    · rw [if_pos h2] at hb
      refine ih _ ?_ b hb
      intro b' hb'
      rcases mem_dinsert hb' with rfl | hin
      · rfl
      · exact h b' hin
    · rw [if_neg h2] at hb
      exact ih init h b hb

theorem extractBlocksPass_empty (rows : List TessRow) :
    ∀ b ∈ extractBlocksPass rows, b.2.line_ids = [] :=
  extractBlocksPass_go rows [] (by intro b hb; simp at hb)

theorem extract_inv : ∀ (rows : List TessRow) (blocks : Dict Block) (lines : Dict Line),
    (rowLids rows).Nodup →
    (∀ lid ∈ rowLids rows, dget lines lid = none) →
    (∀ e ∈ lines, ∃ blk, dget blocks e.2.block_id = some blk ∧ blk.line_ids.count e.1 = 1) →
    (∀ b ∈ blocks, ∀ lid ∈ b.2.line_ids, ∃ ln, dget lines lid = some ln ∧ ln.block_id = b.1) →
    (∀ e ∈ (rows.foldl extractLinesStep (blocks, lines)).2,
       ∃ blk, dget (rows.foldl extractLinesStep (blocks, lines)).1 e.2.block_id = some blk ∧
         blk.line_ids.count e.1 = 1) ∧
    (∀ b ∈ (rows.foldl extractLinesStep (blocks, lines)).1,
       ∀ lid ∈ b.2.line_ids,
         ∃ ln, dget (rows.foldl extractLinesStep (blocks, lines)).2 lid = some ln ∧
           ln.block_id = b.1) := by
  intro rows
  induction rows with
  | nil =>
    intro blocks lines _ _ h1 h2
    exact ⟨h1, h2⟩
  | cons r rs ih =>
    intro blocks lines hnd hF h1 h2
    by_cases h4 : r.level = 4
    · have hlids : rowLids (r :: rs) = lidOf r :: rowLids rs := by
        simp [rowLids, List.filter_cons, h4]
      rw [hlids] at hnd hF
      have hfresh : dget lines (lidOf r) = none := hF (lidOf r) (List.mem_cons_self _ _)
      have hndtail := (List.nodup_cons.mp hnd).2
      have hnotin := (List.nodup_cons.mp hnd).1
      -- the step
      set lid := lidOf r with hlid
      set bid := bidOf r with hbid
      set ln : Line := { line_id := lid, block_id := bid, bbox := rowBox r, order_hint := orderHintOf (rowBox r) } with hln
      have hstep : extractLinesStep (blocks, lines) r =
          ((dmodify (if (dget blocks bid).isSome then blocks
              else dinsert blocks bid { block_id := bid, bbox := rowBox r, line_ids := [] })
            bid (fun b => { b with line_ids := b.line_ids ++ [lid] })),
           dinsert lines lid ln) := by
        simp only [extractLinesStep, if_pos h4]
      have hlines' : dinsert lines lid ln = lines ++ [(lid, ln)] := dinsert_of_none ln hfresh
      -- blocks' facts
      obtain ⟨blkv, hblkv, hblkv_lines, hblkv_empty_or⟩ :
          ∃ blkv, dget (if (dget blocks bid).isSome then blocks
              else dinsert blocks bid { block_id := bid, bbox := rowBox r, line_ids := [] })
            bid = some blkv ∧
            (∀ lid' ∈ blkv.line_ids, ∃ ln', dget lines lid' = some ln' ∧ ln'.block_id = bid) ∧
            (∀ e ∈ lines, ∃ blk, dget (if (dget blocks bid).isSome then blocks
                else dinsert blocks bid { block_id := bid, bbox := rowBox r, line_ids := [] })
              e.2.block_id = some blk ∧ blk.line_ids.count e.1 = 1) := by
        rcases hdg : dget blocks bid with _ | v
        · simp only [Option.isSome_none, Bool.false_eq_true, if_false]
          rw [dinsert_of_none _ hdg]
          refine ⟨{ block_id := bid, bbox := rowBox r, line_ids := [] }, ?_, ?_, ?_⟩
          · rw [dget_append_of_none _ hdg]
            exact dget_singleton_self _ _
          · intro lid' hlid'
            simp at hlid'
          · intro e he
            obtain ⟨blk, hblk, hc⟩ := h1 e he
            exact ⟨blk, dget_append_of_some _ hblk, hc⟩
        · simp only [Option.isSome_some, if_true]
          refine ⟨v, hdg, ?_, h1⟩
          intro lid' hlid'
          exact h2 (bid, v) (dget_mem hdg) lid' hlid'
      have hcount0 : blkv.line_ids.count lid = 0 := by
        rw [List.count_eq_zero]
        intro hin
        obtain ⟨ln', hln', _⟩ := hblkv_lines lid hin
        rw [hfresh] at hln'
        exact absurd hln' (by simp)
      -- blocks'-level I2
      have h2' : ∀ b ∈ (if (dget blocks bid).isSome then blocks
          else dinsert blocks bid { block_id := bid, bbox := rowBox r, line_ids := [] }),
          ∀ lid' ∈ b.2.line_ids, ∃ ln', dget lines lid' = some ln' ∧ ln'.block_id = b.1 := by
        rcases hdg : dget blocks bid with _ | v
        · simp only [Option.isSome_none, Bool.false_eq_true, if_false]
          rw [dinsert_of_none _ hdg]
          intro b hb lid' hlid'
          rcases List.mem_append.mp hb with hb' | hb'
          · exact h2 b hb' lid' hlid'
          · rcases List.mem_singleton.mp hb' with rfl
            simp at hlid'
        · simp only [Option.isSome_some, if_true]
          exact h2
      rw [List.foldl_cons, hstep]
      -- invariants for the new state, then the tail induction
      refine ih _ _ hndtail ?_ ?_ ?_
      · -- freshness for the remaining lids
        intro lid' hlid'
        rw [hlines', dget_append_of_none _ (hF lid' (List.mem_cons_of_mem _ hlid'))]
        exact dget_singleton_ne _ (fun hh => hnotin (hh ▸ hlid'))
      · -- I1 for the new state
        intro e he
        rw [hlines'] at he
        rcases List.mem_append.mp he with he' | he'
        · obtain ⟨blk, hblk, hc⟩ := hblkv_empty_or e he'
          rw [dget_dmodify]
          by_cases heb : e.2.block_id = bid
          · rw [if_pos heb]
            rw [heb, hblkv] at hblk
            obtain rfl : blkv = blk := Option.some.inj hblk
            rw [hblkv]
            refine ⟨_, rfl, ?_⟩
            simp only [List.count_append]
            have hne : e.1 ≠ lid := by
              intro hh
              have := mem_dget_isSome he'
              rw [hh, hfresh] at this
              simp at this
            simp [List.count_singleton, hne, hc]
          · rw [if_neg heb]
            exact ⟨blk, hblk, hc⟩
        · rcases List.mem_singleton.mp he' with rfl
          rw [dget_dmodify]
          rw [if_pos (show ((lid, ln) : String × Line).2.block_id = bid from rfl), hblkv]
          refine ⟨_, rfl, ?_⟩
          simp only [List.count_append]
          simp [List.count_singleton, hcount0]
      · -- I2 for the new state
        intro b hb lid' hlid'
        rcases mem_dmodify hb with hb' | ⟨v, hv, rfl⟩
        · obtain ⟨ln', hln', hown⟩ := h2' b hb' lid' hlid'
          rw [hlines']
          exact ⟨ln', dget_append_of_some _ hln', hown⟩
        · rw [hblkv] at hv
          obtain rfl : blkv = v := Option.some.inj hv
          simp only at hlid'
          rcases List.mem_append.mp hlid' with hl | hl
          · obtain ⟨ln', hln', hown⟩ := hblkv_lines lid' hl
            rw [hlines']
            exact ⟨ln', dget_append_of_some _ hln', hown⟩
          · rcases List.mem_singleton.mp hl with rfl
            rw [hlines', dget_append_of_none _ hfresh]
            exact ⟨ln, dget_singleton_self _ _, rfl⟩
    · have hlids : rowLids (r :: rs) = rowLids rs := by
        simp [rowLids, List.filter_cons, h4]
      rw [hlids] at hnd hF
      rw [List.foldl_cons]
      have hstep : extractLinesStep (blocks, lines) r = (blocks, lines) := by
        simp only [extractLinesStep, if_neg h4]
      rw [hstep]
      exact ih blocks lines hnd hF h1 h2

/-- The extract stage establishes the invariant, given pairwise-distinct
level-4 ids (the OCR numbering contract). -/
theorem extract_wf (rows : List TessRow) (hnd : (rowLids rows).Nodup) :
    wfLayout (extract_blocks_lines rows).1 (extract_blocks_lines rows).2 := by
  have h0 := extractBlocksPass_empty rows
  exact extract_inv rows (extractBlocksPass rows) [] hnd
    (by intro lid _; rfl)
    (by intro e he; simp at he)
    (by intro b hb lid hlid; rw [h0 b hb] at hlid; simp at hlid)

/-! #### the margin-filter stage -/

/-- Removing any set of block keys together with their lines, and pruning
the survivors' line lists to surviving lines, preserves the invariant. -/
theorem remove_set_wf (blocks : Dict Block) (lines : Dict Line) (R : List String)
    (h1 : ∀ e ∈ lines, ∃ blk, dget blocks e.2.block_id = some blk ∧ blk.line_ids.count e.1 = 1)
    (h2 : ∀ b ∈ blocks, ∀ lid ∈ b.2.line_ids, ∃ ln, dget lines lid = some ln ∧ ln.block_id = b.1) :
    wfLayout
      ((blocks.filter (fun e => ¬ e.1 ∈ R)).map (fun e => (e.1, { e.2 with line_ids := e.2.line_ids.filter (fun lid => (dget (lines.filter (fun e2 => ¬ e2.2.block_id ∈ R)) lid).isSome) })))
      (lines.filter (fun e => ¬ e.2.block_id ∈ R)) := by
  constructor
  · intro e he
    have hee := List.mem_filter.mp he
    obtain ⟨blk, hblk, hc⟩ := h1 e hee.1
    have hfb : dget (blocks.filter (fun e2 => ¬ e2.1 ∈ R)) e.2.block_id = some blk :=
      dget_filter_keep hblk (by simpa using hee.2)
    have hmap := dget_map_val (blocks.filter (fun e2 => ¬ e2.1 ∈ R))
      (fun v => { v with line_ids := v.line_ids.filter (fun lid => (dget (lines.filter (fun e2 => ¬ e2.2.block_id ∈ R)) lid).isSome) })
      e.2.block_id
    refine ⟨{ blk with line_ids := blk.line_ids.filter (fun lid => (dget (lines.filter (fun e2 => ¬ e2.2.block_id ∈ R)) lid).isSome) }, ?_, ?_⟩
    · dsimp only
      rw [hmap, hfb]
      rfl
    · simp only
      rw [List.count_filter (by simpa using mem_dget_isSome he)]
      exact hc
  · intro b hb lid hlid
    obtain ⟨b0, hb0, rfl⟩ := List.mem_map.mp hb
    have hb0' := List.mem_filter.mp hb0
    have hlid' := List.mem_filter.mp hlid
    obtain ⟨ln, hln, hown⟩ := h2 b0 hb0'.1 lid hlid'.1
    have hkeep : ¬ (ln.block_id ∈ R) := by
      rw [hown]
      simpa using hb0'.2
    exact ⟨ln, dget_filter_keep hln (by simpa using hkeep), hown⟩

/-- The margin filter preserves the Line/Block invariant. -/
theorem filter_wf (blocks : Dict Block) (lines : Dict Line) (h : wfLayout blocks lines) :
    wfLayout (filter_margin_blocks blocks lines).1 (filter_margin_blocks blocks lines).2 := by
  obtain ⟨h1, h2⟩ := h
  unfold filter_margin_blocks
  split
  · exact ⟨h1, h2⟩
  · dsimp only
    split
    · exact ⟨h1, h2⟩
    · exact remove_set_wf blocks lines _ h1 h2

/-! #### the split stage: id-generation instrumentation -/

/-- `segInsStep` instrumented to also record the inserted id. -/
def segInsStepG (blockId : String) (ln : Line) (lid : String)
    (acc : Dict Line × List String × List String) (si : Nat × (Int × Int)) :
    Dict Line × List String × List String :=
  (dinsert acc.1 (segId lid si.1) (segLine blockId ln si.1 si.2),
   acc.2.1 ++ [segId lid si.1], acc.2.2 ++ [segId lid si.1])

/-- `processRashiLine` instrumented to also record the inserted ids. -/
def processRashiLineG (pageW pageH : Int) (wordsFor : CropRect → List (String × BBox))
    (blockId : String) (st : Dict Line × List String × List String) (lid : String) :
    Dict Line × List String × List String :=
  match dget st.1 lid with
  | none => st
  | some ln =>
    let crop := padCrop pageW pageH ln.bbox 2
    let split_xs := split_points_for_line ln (wordsFor crop)
    if split_xs = [] then (st.1, st.2.1 ++ [lid], st.2.2)
    else
      let segs := splitSegments ln split_xs
      let st' := segs.enum.foldl (segInsStepG blockId ln lid) st
      (derase st'.1 lid, st'.2.1, st'.2.2)

/-- `splitBlockStep` instrumented to also record the inserted ids. -/
def splitBlockStepG (pageW pageH : Int) (wordsFor : CropRect → List (String × BBox))
    (st : Dict Block × Dict Line × List String) (e : String × Block) :
    Dict Block × Dict Line × List String :=
  if e.2.font ≠ some Font.rashi then (st.1 ++ [e], st.2.1, st.2.2)
  else
    let r := e.2.line_ids.foldl (processRashiLineG pageW pageH wordsFor e.2.block_id) (st.2.1, [], st.2.2)
    (st.1 ++ [(e.1, { e.2 with line_ids := r.2.1 })], r.1, r.2.2)

/-- `split_rashi_lines` instrumented to also return, in traversal order, the
ids of every synthetic sub-segment line it inserts. -/
def split_rashi_linesG (pageW pageH : Int) (wordsFor : CropRect → List (String × BBox))
    (blocks : Dict Block) (lines : Dict Line) : Dict Block × Dict Line × List String :=
  blocks.foldl (splitBlockStepG pageW pageH wordsFor) ([], lines, [])

theorem segInsStepG_fold (blockId : String) (ln : Line) (lid : String) :
    ∀ (l : List (Nat × (Int × Int))) (L : Dict Line) (a g : List String),
      l.foldl (segInsStepG blockId ln lid) (L, a, g) =
        ((l.foldl (segInsStep blockId ln lid) (L, a)).1,
         (l.foldl (segInsStep blockId ln lid) (L, a)).2,
         g ++ l.map (fun si => segId lid si.1)) := by
  intro l
  induction l with
  | nil => intro L a g; simp
  | cons si l' ih =>
    intro L a g
    simp only [List.foldl_cons, List.map_cons]
    rw [show segInsStepG blockId ln lid (L, a, g) si =
      ((segInsStep blockId ln lid (L, a) si).1, (segInsStep blockId ln lid (L, a) si).2,
        g ++ [segId lid si.1]) from rfl]
    rw [ih]
    simp [segInsStep]

theorem processRashiLineG_proj (pageW pageH : Int) (wordsFor : CropRect → List (String × BBox))
    (bid : String) (L : Dict Line) (a g : List String) (lid : String) :
    processRashiLineG pageW pageH wordsFor bid (L, a, g) lid =
      ((processRashiLine pageW pageH wordsFor bid (L, a) lid).1,
       (processRashiLine pageW pageH wordsFor bid (L, a) lid).2,
       g ++ (processRashiLineG pageW pageH wordsFor bid (L, [], []) lid).2.2) := by
  rcases hdl : dget L lid with _ | ln
  · simp [processRashiLineG, processRashiLine, hdl]
  · simp only [processRashiLineG, processRashiLine, hdl]
    by_cases hsx : split_points_for_line ln (wordsFor (padCrop pageW pageH ln.bbox 2)) = []
    · simp [hsx]
    · simp only [if_neg hsx]
      rw [segInsStepG_fold, segInsStepG_fold]
      simp

theorem foldG_proj (pageW pageH : Int) (wordsFor : CropRect → List (String × BBox)) (bid : String) :
    ∀ (lids : List String) (L : Dict Line) (a g : List String),
      lids.foldl (processRashiLineG pageW pageH wordsFor bid) (L, a, g) =
        ((lids.foldl (processRashiLine pageW pageH wordsFor bid) (L, a)).1,
         (lids.foldl (processRashiLine pageW pageH wordsFor bid) (L, a)).2,
         g ++ (lids.foldl (processRashiLineG pageW pageH wordsFor bid) (L, a, [])).2.2) := by
  intro lids
  induction lids with
  | nil => intro L a g; simp
  | cons lid lids' ih =>
    intro L a g
    simp only [List.foldl_cons]
    rw [processRashiLineG_proj pageW pageH wordsFor bid L a g lid]
    rw [processRashiLineG_proj pageW pageH wordsFor bid L a [] lid]
    rw [ih, ih]
    simp
    conv_rhs => rw [ih]

theorem splitBlockStepG_proj (pageW pageH : Int) (wordsFor : CropRect → List (String × BBox))
    (B : Dict Block) (L : Dict Line) (g : List String) (e : String × Block) :
    splitBlockStepG pageW pageH wordsFor (B, L, g) e =
      ((splitBlockStep pageW pageH wordsFor (B, L) e).1,
       (splitBlockStep pageW pageH wordsFor (B, L) e).2,
       g ++ (splitBlockStepG pageW pageH wordsFor ([], L, []) e).2.2) := by
  by_cases hf : e.2.font ≠ some Font.rashi
  · simp [splitBlockStepG, splitBlockStep, hf]
  · simp only [splitBlockStepG, splitBlockStep, if_neg hf]
    rw [foldG_proj, foldG_proj]

theorem splitFoldG_proj (pageW pageH : Int) (wordsFor : CropRect → List (String × BBox)) :
    ∀ (bs : List (String × Block)) (B : Dict Block) (L : Dict Line) (g : List String),
      bs.foldl (splitBlockStepG pageW pageH wordsFor) (B, L, g) =
        ((bs.foldl (splitBlockStep pageW pageH wordsFor) (B, L)).1,
         (bs.foldl (splitBlockStep pageW pageH wordsFor) (B, L)).2,
         g ++ (bs.foldl (splitBlockStepG pageW pageH wordsFor) (B, L, [])).2.2) := by
  intro bs
  induction bs with
  | nil => intro B L g; simp
  | cons e bs' ih =>
    intro B L g
    simp only [List.foldl_cons]
    rw [splitBlockStepG_proj pageW pageH wordsFor B L g e]
    rw [splitBlockStepG_proj pageW pageH wordsFor B L [] e]
    rw [ih, ih]
    simp
    conv_rhs => rw [ih]

/-- The instrumented split agrees with the real one on the block and line
maps. -/
theorem split_rashi_linesG_proj (pageW pageH : Int) (wordsFor : CropRect → List (String × BBox))
    (blocks : Dict Block) (lines : Dict Line) :
    (split_rashi_linesG pageW pageH wordsFor blocks lines).1 =
      (split_rashi_lines pageW pageH wordsFor blocks lines).1 ∧
    (split_rashi_linesG pageW pageH wordsFor blocks lines).2.1 =
      (split_rashi_lines pageW pageH wordsFor blocks lines).2 := by
  unfold split_rashi_linesG split_rashi_lines
  rw [splitFoldG_proj]
  exact ⟨rfl, rfl⟩

/-! #### more dict lemmas for the split stage -/

theorem dget_derase {α : Type} (d : Dict α) (k k' : String) :
    dget (derase d k) k' = if k' = k then none else dget d k' := by
  induction d with
  | nil => by_cases h : k' = k <;> simp [derase, dget, h]
  | cons e t ih =>
    have hstep : derase (e :: t) k = if e.1 = k then derase t k else e :: derase t k := by
      by_cases he : e.1 = k <;> simp [derase, List.filter_cons, he]
    by_cases he : e.1 = k
    · rw [hstep, if_pos he, ih]
      by_cases hk : k' = k
      · rw [if_pos hk, if_pos hk]
      · rw [if_neg hk, if_neg hk, dget, if_neg (fun hh : e.1 = k' => hk (hh.symm.trans he))]
    · rw [hstep, if_neg he]
      by_cases he' : e.1 = k'
      · have hk : ¬ (k' = k) := fun hh => he (he'.trans hh)
        rw [dget, if_pos he', if_neg hk, dget, if_pos he']
      · rw [dget, if_neg he', ih]
        by_cases hk : k' = k
        · rw [if_pos hk, if_pos hk]
        · rw [if_neg hk, if_neg hk, dget, if_neg he']

theorem dget_none_of_not_mem_dkeys {α : Type} {d : Dict α} {k : String}
    (h : k ∉ dkeys d) : dget d k = none := by
  induction d with
  | nil => rfl
  | cons e t ih =>
    rw [dget]
    rw [if_neg (fun hh => h (by rw [← hh]; exact List.mem_cons_self _ _))]
    exact ih (fun hh => h (List.mem_cons_of_mem _ hh))

theorem dkeys_of_dget_some {α : Type} {d : Dict α} {k : String} {v : α}
    (h : dget d k = some v) : k ∈ dkeys d := by
  by_contra hk
  rw [dget_none_of_not_mem_dkeys hk] at h
  exact absurd h (by simp)

theorem not_mem_dkeys_of_dget_none {α : Type} {d : Dict α} {k : String}
    (h : dget d k = none) : k ∉ dkeys d := by
  induction d with
  | nil => simp [dkeys]
  | cons e t ih =>
    rw [dget] at h
    by_cases he : e.1 = k
    · rw [if_pos he] at h
      exact absurd h (by simp)
    · rw [if_neg he] at h
      simp only [dkeys, List.map_cons, List.mem_cons]
      rintro (h1 | h2)
      · exact he h1.symm
      · exact (ih h) (by simpa [dkeys] using h2)

theorem dget_of_mem_nodup {α : Type} {d : Dict α} {e : String × α}
    (hnd : (dkeys d).Nodup) (h : e ∈ d) : dget d e.1 = some e.2 := by
  induction d with
  | nil => simp at h
  | cons e0 t ih =>
    have hnd' : (e0.1 :: dkeys t).Nodup := hnd
    have hnc := List.nodup_cons.mp hnd'
    rcases List.mem_cons.mp h with rfl | hmem
    · rw [dget, if_pos rfl]
    · rw [dget]
      by_cases he : e0.1 = e.1
      · exfalso
        have hk : e.1 ∈ dkeys t := List.mem_map.mpr ⟨e, hmem, rfl⟩
        rw [he] at hnc
        exact hnc.1 hk
      · rw [if_neg he]
        exact ih hnc.2 hmem

theorem dkeys_append {α : Type} (d1 d2 : Dict α) :
    dkeys (d1 ++ d2) = dkeys d1 ++ dkeys d2 := by
  simp [dkeys]

theorem dkeys_derase_sublist {α : Type} (d : Dict α) (k : String) :
    List.Sublist (dkeys (derase d k)) (dkeys d) :=
  (List.filter_sublist d).map Prod.fst

theorem dkeys_pairs {β γ : Type} (f : β → String) (g : β → γ) (l : List β) :
    dkeys (l.map (fun si => (f si, g si))) = l.map f := by
  simp [dkeys]

theorem dget_pairs_mem {β γ : Type} (f : β → String) (g : β → γ) :
    ∀ (l : List β) (x : String), x ∈ l.map f →
      ∃ si ∈ l, dget (l.map (fun si => (f si, g si))) x = some (g si) := by
  intro l
  induction l with
  | nil => intro x hx; simp at hx
  | cons b t ih =>
    intro x hx
    by_cases hb : f b = x
    · exact ⟨b, List.mem_cons_self _ _, by rw [List.map_cons, dget, if_pos hb]⟩
    · have hx' : x ∈ t.map f := by
        rw [List.map_cons] at hx
        rcases List.mem_cons.mp hx with h1 | h2
        · exact absurd h1.symm hb
        · exact h2
      obtain ⟨si, hsi, hget⟩ := ih x hx'
      refine ⟨si, List.mem_cons_of_mem _ hsi, ?_⟩
      rw [List.map_cons, dget, if_neg hb]
      exact hget

/-! #### accumulator decompositions for the split-stage folds -/

theorem insFold_acc (blockId : String) (ln : Line) (lid : String) :
    ∀ (l : List (Nat × (Int × Int))) (L : Dict Line) (a : List String),
      l.foldl (segInsStep blockId ln lid) (L, a) =
        ((l.foldl (segInsStep blockId ln lid) (L, [])).1,
         a ++ (l.foldl (segInsStep blockId ln lid) (L, [])).2) := by
  intro l
  induction l with
  | nil => intro L a; simp
  | cons si t ih =>
    intro L a
    simp only [List.foldl_cons, segInsStep, List.nil_append]
    rw [ih (dinsert L (segId lid si.1) (segLine blockId ln si.1 si.2)) (a ++ [segId lid si.1])]
    rw [ih (dinsert L (segId lid si.1) (segLine blockId ln si.1 si.2)) [segId lid si.1]]
    simp

theorem process_acc (pageW pageH : Int) (wordsFor : CropRect → List (String × BBox))
    (bid : String) (L : Dict Line) (a : List String) (lid : String) :
    processRashiLine pageW pageH wordsFor bid (L, a) lid =
      ((processRashiLine pageW pageH wordsFor bid (L, []) lid).1,
       a ++ (processRashiLine pageW pageH wordsFor bid (L, []) lid).2) := by
  rcases hdl : dget L lid with _ | ln
  · simp [processRashiLine, hdl]
  · simp only [processRashiLine, hdl]
    by_cases hsx : split_points_for_line ln (wordsFor (padCrop pageW pageH ln.bbox 2)) = []
    · simp [hsx]
    · simp only [if_neg hsx]
      rw [insFold_acc bid ln lid _ L a]

theorem processFold_acc (pageW pageH : Int) (wordsFor : CropRect → List (String × BBox))
    (bid : String) :
    ∀ (lids : List String) (L : Dict Line) (a : List String),
      lids.foldl (processRashiLine pageW pageH wordsFor bid) (L, a) =
        ((lids.foldl (processRashiLine pageW pageH wordsFor bid) (L, [])).1,
         a ++ (lids.foldl (processRashiLine pageW pageH wordsFor bid) (L, [])).2) := by
  intro lids
  induction lids with
  | nil => intro L a; simp
  | cons lid t ih =>
    intro L a
    simp only [List.foldl_cons]
    rcases hP : processRashiLine pageW pageH wordsFor bid (L, []) lid with ⟨L1, inc⟩
    rw [process_acc pageW pageH wordsFor bid L a lid, hP]
    dsimp only
    rw [ih L1 (a ++ inc), ih L1 inc]
    simp

theorem foldG_gen (pageW pageH : Int) (wordsFor : CropRect → List (String × BBox))
    (bid : String) :
    ∀ (lids : List String) (L : Dict Line) (a g : List String),
      (lids.foldl (processRashiLineG pageW pageH wordsFor bid) (L, a, g)).2.2 =
        g ++ (lids.foldl (processRashiLineG pageW pageH wordsFor bid) (L, [], [])).2.2 := by
  intro lids
  induction lids with
  | nil => intro L a g; simp
  | cons lid t ih =>
    intro L a g
    simp only [List.foldl_cons]
    rw [processRashiLineG_proj pageW pageH wordsFor bid L a g lid]
    rw [processRashiLineG_proj pageW pageH wordsFor bid L [] [] lid]
    rcases hP : processRashiLine pageW pageH wordsFor bid (L, []) lid with ⟨L1, inc⟩
    rw [process_acc pageW pageH wordsFor bid L a lid, hP]
    dsimp only
    simp only [List.nil_append]
    rw [ih L1 (a ++ inc) (g ++ (processRashiLineG pageW pageH wordsFor bid (L, [], []) lid).2.2)]
    rw [ih L1 inc ((processRashiLineG pageW pageH wordsFor bid (L, [], []) lid).2.2)]
    simp

/-- With fresh, pairwise-distinct keys, the segment-insertion fold is a plain
append of the new entries and their ids. -/
theorem insFold_eq (blockId : String) (ln : Line) (lid : String) :
    ∀ (l : List (Nat × (Int × Int))) (L : Dict Line) (a : List String),
      (∀ si ∈ l, dget L (segId lid si.1) = none) →
      (l.map (fun si => segId lid si.1)).Nodup →
      l.foldl (segInsStep blockId ln lid) (L, a) =
        (L ++ l.map (fun si => (segId lid si.1, segLine blockId ln si.1 si.2)),
         a ++ l.map (fun si => segId lid si.1)) := by
  intro l
  induction l with
  | nil => intro L a _ _; simp
  | cons si t ih =>
    intro L a hfresh hnd
    simp only [List.foldl_cons, List.map_cons, segInsStep]
    rw [dinsert_of_none _ (hfresh si (List.mem_cons_self _ _))]
    have h1 : ∀ sj ∈ t,
        dget (L ++ [(segId lid si.1, segLine blockId ln si.1 si.2)]) (segId lid sj.1) = none := by
      intro sj hsj
      have hne : segId lid sj.1 ≠ segId lid si.1 := by
        intro he
        have hmem : segId lid si.1 ∈ t.map (fun si => segId lid si.1) :=
          List.mem_map.mpr ⟨sj, hsj, he⟩
        exact (List.nodup_cons.mp hnd).1 hmem
      rw [dget_append_of_none _ (hfresh sj (List.mem_cons_of_mem _ hsj))]
      exact dget_singleton_ne _ hne
    rw [ih _ _ h1 (List.nodup_cons.mp hnd).2]
    simp

/-- The split points computed for a line by the split stage. -/
abbrev splitXsOf (pageW pageH : Int) (wordsFor : CropRect → List (String × BBox)) (ln : Line) :
    List Int :=
  split_points_for_line ln (wordsFor (padCrop pageW pageH ln.bbox 2))

/-- The enumerated segment list of a split line. -/
abbrev segsOf (pageW pageH : Int) (wordsFor : CropRect → List (String × BBox)) (ln : Line) :
    List (Nat × (Int × Int)) :=
  (splitSegments ln (splitXsOf pageW pageH wordsFor ln)).enum

/-- The ids of the synthetic sub-segment lines of a split line. -/
abbrev idsOf (pageW pageH : Int) (wordsFor : CropRect → List (String × BBox)) (lid : String)
    (ln : Line) : List String :=
  (segsOf pageW pageH wordsFor ln).map (fun si => segId lid si.1)

/-- The inserted dictionary entries of a split line. -/
abbrev entriesOf (pageW pageH : Int) (wordsFor : CropRect → List (String × BBox))
    (bk lid : String) (ln : Line) : Dict Line :=
  (segsOf pageW pageH wordsFor ln).map (fun si => (segId lid si.1, segLine bk ln si.1 si.2))

theorem process_nosplit_eq (pageW pageH : Int) (wordsFor : CropRect → List (String × BBox))
    (bk : String) (L : Dict Line) (lid : String) (ln : Line) (hln : dget L lid = some ln)
    (hsx : splitXsOf pageW pageH wordsFor ln = []) :
    processRashiLine pageW pageH wordsFor bk (L, []) lid = (L, [lid]) := by
  simp [processRashiLine, hln, hsx]

theorem processG_nosplit_eq (pageW pageH : Int) (wordsFor : CropRect → List (String × BBox))
    (bk : String) (L : Dict Line) (lid : String) (ln : Line) (hln : dget L lid = some ln)
    (hsx : splitXsOf pageW pageH wordsFor ln = []) :
    processRashiLineG pageW pageH wordsFor bk (L, [], []) lid = (L, [lid], []) := by
  simp [processRashiLineG, hln, hsx]

theorem processG_gen22 (pageW pageH : Int) (wordsFor : CropRect → List (String × BBox))
    (bk : String) (L : Dict Line) (lid : String) (ln : Line) (hln : dget L lid = some ln)
    (hsx : ¬ splitXsOf pageW pageH wordsFor ln = []) :
    (processRashiLineG pageW pageH wordsFor bk (L, [], []) lid).2.2 =
      idsOf pageW pageH wordsFor lid ln := by
  simp only [processRashiLineG, hln]
  rw [if_neg hsx]
  rw [segInsStepG_fold]
  simp

theorem process_split_eq (pageW pageH : Int) (wordsFor : CropRect → List (String × BBox))
    (bk : String) (L : Dict Line) (lid : String) (ln : Line) (hln : dget L lid = some ln)
    (hsx : ¬ splitXsOf pageW pageH wordsFor ln = [])
    (hfr : ∀ si ∈ segsOf pageW pageH wordsFor ln, dget L (segId lid si.1) = none)
    (hnd : (idsOf pageW pageH wordsFor lid ln).Nodup) :
    processRashiLine pageW pageH wordsFor bk (L, []) lid =
      (derase (L ++ entriesOf pageW pageH wordsFor bk lid ln) lid,
       idsOf pageW pageH wordsFor lid ln) := by
  simp only [processRashiLine, hln]
  rw [if_neg hsx]
  rw [insFold_eq bk ln lid (segsOf pageW pageH wordsFor ln) L [] hfr hnd]
  simp

theorem processG_split_eq (pageW pageH : Int) (wordsFor : CropRect → List (String × BBox))
    (bk : String) (L : Dict Line) (lid : String) (ln : Line) (hln : dget L lid = some ln)
    (hsx : ¬ splitXsOf pageW pageH wordsFor ln = [])
    (hfr : ∀ si ∈ segsOf pageW pageH wordsFor ln, dget L (segId lid si.1) = none)
    (hnd : (idsOf pageW pageH wordsFor lid ln).Nodup) :
    processRashiLineG pageW pageH wordsFor bk (L, [], []) lid =
      (derase (L ++ entriesOf pageW pageH wordsFor bk lid ln) lid,
       idsOf pageW pageH wordsFor lid ln, idsOf pageW pageH wordsFor lid ln) := by
  simp only [processRashiLineG, hln]
  rw [if_neg hsx]
  rw [segInsStepG_fold]
  rw [insFold_eq bk ln lid (segsOf pageW pageH wordsFor ln) L [] hfr hnd]
  simp

/-- The per-block line fold of the split stage: with fresh, duplicate-free
generated ids, it keeps the line-map keys duplicate-free, touches only the
processed lines, and rebuilds the block's line list from lines it owns. -/
theorem inner_split_fold (pageW pageH : Int) (wordsFor : CropRect → List (String × BBox))
    (bk : String) :
    ∀ (lids : List String) (L L' : Dict Line) (nl δ : List String),
      lids.foldl (processRashiLine pageW pageH wordsFor bk) (L, []) = (L', nl) →
      (lids.foldl (processRashiLineG pageW pageH wordsFor bk) (L, [], [])).2.2 = δ →
      (dkeys L).Nodup →
      lids.Nodup →
      (∀ lid ∈ lids, ∃ ln, dget L lid = some ln ∧ ln.block_id = bk) →
      (∀ g ∈ δ, dget L g = none) →
      δ.Nodup →
      (dkeys L').Nodup ∧
      (∀ x, x ∉ lids → x ∉ δ → dget L' x = dget L x) ∧
      (∀ x ∈ nl, ∃ ln, dget L' x = some ln ∧ ln.block_id = bk) ∧
      nl.Nodup ∧
      (∀ x ∈ nl, x ∈ lids ∨ x ∈ δ) ∧
      (∀ x v, dget L' x = some v → (x ∉ lids ∧ dget L x = some v) ∨ x ∈ nl) := by
  intro lids
  induction lids with
  | nil =>
    intro L L' nl δ hfold hgen hLnd _ _ _ _
    simp only [List.foldl_nil] at hfold hgen
    injection hfold with h1 h2
    subst h1
    subst h2
    subst hgen
    refine ⟨hLnd, fun x _ _ => rfl, ?_, List.nodup_nil, ?_, ?_⟩
    · intro x hx; simp at hx
    · intro x hx; simp at hx
    · intro x v h
      exact Or.inl ⟨by simp, h⟩
  | cons lid t ih =>
    intro L L' nl δ hfold hgen hLnd hlnd howned hfresh hδnd
    obtain ⟨ln, hln, hlnbk⟩ := howned lid (List.mem_cons_self _ _)
    have hlt : lid ∉ t := (List.nodup_cons.mp hlnd).1
    have htnd : t.Nodup := (List.nodup_cons.mp hlnd).2
    simp only [List.foldl_cons] at hfold hgen
    by_cases hsx : splitXsOf pageW pageH wordsFor ln = []
    · rw [process_nosplit_eq pageW pageH wordsFor bk L lid ln hln hsx] at hfold
      rw [processG_nosplit_eq pageW pageH wordsFor bk L lid ln hln hsx] at hgen
      rcases hT : t.foldl (processRashiLine pageW pageH wordsFor bk) (L, []) with ⟨L2, nl2⟩
      rw [processFold_acc pageW pageH wordsFor bk t L [lid], hT] at hfold
      injection hfold with h1 h2
      subst h1
      subst h2
      rw [foldG_gen pageW pageH wordsFor bk t L [lid] []] at hgen
      simp only [List.nil_append] at hgen
      have hlidδ : lid ∉ δ := fun hmem => by
        have hnone := hfresh lid hmem
        rw [hln] at hnone
        exact Option.noConfusion hnone
      obtain ⟨c0, c1, c2, c3, c4, c5⟩ :=
        ih L L2 nl2 δ hT hgen hLnd htnd
          (fun l2 hl2 => howned l2 (List.mem_cons_of_mem _ hl2)) hfresh hδnd
      refine ⟨c0, ?_, ?_, ?_, ?_, ?_⟩
      · intro x hx hxδ
        exact c1 x (fun h => hx (List.mem_cons_of_mem _ h)) hxδ
      · intro x hx
        rcases List.mem_append.mp hx with hx1 | hx2
        · have hx1' : x = lid := List.mem_singleton.mp hx1
          subst hx1'
          have heq : dget L2 x = dget L x := c1 x hlt hlidδ
          exact ⟨ln, by rw [heq, hln], hlnbk⟩
        · exact c2 x hx2
      · rw [List.singleton_append]
        refine List.nodup_cons.mpr ⟨?_, c3⟩
        intro hmem
        rcases c4 lid hmem with h | h
        · exact hlt h
        · exact hlidδ h
      · intro x hx
        rcases List.mem_append.mp hx with hx1 | hx2
        · have hx1' : x = lid := List.mem_singleton.mp hx1
          subst hx1'
          exact Or.inl (List.mem_cons_self _ _)
        · rcases c4 x hx2 with h | h
          · exact Or.inl (List.mem_cons_of_mem _ h)
          · exact Or.inr h
      · intro x v hxv
        rcases c5 x v hxv with ⟨hxt, hxL⟩ | hxnl
        · by_cases hxl : x = lid
          · subst hxl
            exact Or.inr (List.mem_append.mpr (Or.inl (List.mem_singleton.mpr rfl)))
          · refine Or.inl ⟨?_, hxL⟩
            intro hmem
            rcases List.mem_cons.mp hmem with h | h
            · exact hxl h
            · exact hxt h
        · exact Or.inr (List.mem_append.mpr (Or.inr hxnl))
    · rcases hS : processRashiLineG pageW pageH wordsFor bk (L, [], []) lid with ⟨SL, Sa, Sg⟩
      have hSg : Sg = idsOf pageW pageH wordsFor lid ln := by
        have h22 := processG_gen22 pageW pageH wordsFor bk L lid ln hln hsx
        rw [hS] at h22
        exact h22
      subst hSg
      rw [hS] at hgen
      rw [foldG_gen pageW pageH wordsFor bk t SL Sa (idsOf pageW pageH wordsFor lid ln)] at hgen
      subst hgen
      have hfr : ∀ si ∈ segsOf pageW pageH wordsFor ln, dget L (segId lid si.1) = none := by
        intro si hsi
        exact hfresh _ (List.mem_append.mpr (Or.inl (List.mem_map.mpr ⟨si, hsi, rfl⟩)))
      have hidnd : (idsOf pageW pageH wordsFor lid ln).Nodup := hδnd.of_append_left
      have hfullG := processG_split_eq pageW pageH wordsFor bk L lid ln hln hsx hfr hidnd
      rw [hS] at hfullG
      injection hfullG with hSL hrest
      subst hSL
      rw [process_split_eq pageW pageH wordsFor bk L lid ln hln hsx hfr hidnd] at hfold
      rcases hT : t.foldl (processRashiLine pageW pageH wordsFor bk)
        (derase (L ++ entriesOf pageW pageH wordsFor bk lid ln) lid, []) with ⟨L3, nl2⟩
      rw [processFold_acc pageW pageH wordsFor bk t _ (idsOf pageW pageH wordsFor lid ln), hT]
        at hfold
      injection hfold with h1 h2
      subst h1
      subst h2
      have hdisj := (List.nodup_append.mp hδnd).2.2
      have hidsfreshkeys : ∀ x ∈ idsOf pageW pageH wordsFor lid ln, x ∉ dkeys L := by
        intro x hx
        exact not_mem_dkeys_of_dget_none (hfresh x (List.mem_append.mpr (Or.inl hx)))
      have hkeysLE : dkeys (L ++ entriesOf pageW pageH wordsFor bk lid ln) =
          dkeys L ++ idsOf pageW pageH wordsFor lid ln := by
        rw [dkeys_append, dkeys_pairs]
      have hkeysLEnd : (dkeys (L ++ entriesOf pageW pageH wordsFor bk lid ln)).Nodup := by
        rw [hkeysLE]
        exact List.nodup_append.mpr ⟨hLnd, hidnd, fun x hxL hxI => (hidsfreshkeys x hxI) hxL⟩
      have hkeysL2 : (dkeys (derase (L ++ entriesOf pageW pageH wordsFor bk lid ln) lid)).Nodup :=
        hkeysLEnd.sublist (dkeys_derase_sublist _ _)
      have howned2 : ∀ l2 ∈ t, ∃ ln2,
          dget (derase (L ++ entriesOf pageW pageH wordsFor bk lid ln) lid) l2 = some ln2 ∧
          ln2.block_id = bk := by
        intro l2 hl2
        obtain ⟨ln2, hget, hbk2⟩ := howned l2 (List.mem_cons_of_mem _ hl2)
        have hne : ¬ (l2 = lid) := fun he => hlt (he ▸ hl2)
        refine ⟨ln2, ?_, hbk2⟩
        rw [dget_derase, if_neg hne]
        exact dget_append_of_some _ hget
      have hδtfresh : ∀ g ∈ (t.foldl (processRashiLineG pageW pageH wordsFor bk)
          (derase (L ++ entriesOf pageW pageH wordsFor bk lid ln) lid, [], [])).2.2,
          dget (derase (L ++ entriesOf pageW pageH wordsFor bk lid ln) lid) g = none := by
        intro g hg
        have hgL : dget L g = none := hfresh g (List.mem_append.mpr (Or.inr hg))
        have hgI : g ∉ idsOf pageW pageH wordsFor lid ln := fun hgi => hdisj hgi hg
        rw [dget_derase]
        by_cases hgl : g = lid
        · rw [if_pos hgl]
        · rw [if_neg hgl]
          rw [dget_append_of_none _ hgL]
          exact dget_none_of_not_mem_dkeys (by rw [dkeys_pairs]; exact hgI)
      obtain ⟨c0, c1, c2, c3, c4, c5⟩ :=
        ih (derase (L ++ entriesOf pageW pageH wordsFor bk lid ln) lid) L3 nl2 _ hT rfl
          hkeysL2 htnd howned2 hδtfresh hδnd.of_append_right
      refine ⟨c0, ?_, ?_, ?_, ?_, ?_⟩
      · intro x hx hxδ
        have hxt : x ∉ t := fun h => hx (List.mem_cons_of_mem _ h)
        have hxl : ¬ (x = lid) := fun h => hx (by rw [h]; exact List.mem_cons_self _ _)
        have hxI : x ∉ idsOf pageW pageH wordsFor lid ln :=
          fun h => hxδ (List.mem_append.mpr (Or.inl h))
        have hxδt : x ∉ (t.foldl (processRashiLineG pageW pageH wordsFor bk)
            (derase (L ++ entriesOf pageW pageH wordsFor bk lid ln) lid, [], [])).2.2 :=
          fun h => hxδ (List.mem_append.mpr (Or.inr h))
        rw [c1 x hxt hxδt]
        rw [dget_derase, if_neg hxl]
        rcases hLx : dget L x with _ | v
        · rw [dget_append_of_none _ hLx]
          exact dget_none_of_not_mem_dkeys (by rw [dkeys_pairs]; exact hxI)
        · exact dget_append_of_some _ hLx
      · intro x hx
        rcases List.mem_append.mp hx with hxI | hx2
        · obtain ⟨si, hsi, hgetE⟩ := dget_pairs_mem (fun si => segId lid si.1)
            (fun si => segLine bk ln si.1 si.2) (segsOf pageW pageH wordsFor ln) x hxI
          have hxLnone : dget L x = none := hfresh x (List.mem_append.mpr (Or.inl hxI))
          have hxl : ¬ (x = lid) := fun h => by
            rw [h, hln] at hxLnone
            exact Option.noConfusion hxLnone
          have hxt : x ∉ t := fun h => by
            obtain ⟨ln2, hget2, _⟩ := howned x (List.mem_cons_of_mem _ h)
            rw [hget2] at hxLnone
            exact Option.noConfusion hxLnone
          have hxδt : x ∉ (t.foldl (processRashiLineG pageW pageH wordsFor bk)
              (derase (L ++ entriesOf pageW pageH wordsFor bk lid ln) lid, [], [])).2.2 :=
            fun h => hdisj hxI h
          refine ⟨segLine bk ln si.1 si.2, ?_, rfl⟩
          rw [c1 x hxt hxδt]
          rw [dget_derase, if_neg hxl, dget_append_of_none _ hxLnone]
          exact hgetE
        · exact c2 x hx2
      · refine List.nodup_append.mpr ⟨hidnd, c3, ?_⟩
        intro x hxI hx2
        rcases c4 x hx2 with h | h
        · obtain ⟨ln2, hget2, _⟩ := howned x (List.mem_cons_of_mem _ h)
          have hnone := hfresh x (List.mem_append.mpr (Or.inl hxI))
          rw [hget2] at hnone
          exact Option.noConfusion hnone
        · exact hdisj hxI h
      · intro x hx
        rcases List.mem_append.mp hx with hxI | hx2
        · exact Or.inr (List.mem_append.mpr (Or.inl hxI))
        · rcases c4 x hx2 with h | h
          · exact Or.inl (List.mem_cons_of_mem _ h)
          · exact Or.inr (List.mem_append.mpr (Or.inr h))
      · intro x v hxv
        rcases c5 x v hxv with ⟨hxt, hxL2⟩ | hx2
        · rw [dget_derase] at hxL2
          by_cases hxl : x = lid
          · rw [if_pos hxl] at hxL2
            exact Option.noConfusion hxL2
          · rw [if_neg hxl] at hxL2
            rcases hLx : dget L x with _ | w
            · rw [dget_append_of_none _ hLx] at hxL2
              have hxI : x ∈ idsOf pageW pageH wordsFor lid ln := by
                have hk := dkeys_of_dget_some hxL2
                rw [dkeys_pairs] at hk
                exact hk
              exact Or.inr (List.mem_append.mpr (Or.inl hxI))
            · have h' := dget_append_of_some (entriesOf pageW pageH wordsFor bk lid ln) hLx
              rw [h'] at hxL2
              injection hxL2 with hv
              refine Or.inl ⟨?_, by rw [hv]⟩
              intro hmem
              rcases List.mem_cons.mp hmem with h | h
              · exact hxl h
              · exact hxt h
        · exact Or.inr (List.mem_append.mpr (Or.inr hx2))

theorem dget_mid_ne {α : Type} (B bs : Dict α) (bk : String) (β β' : α) (x : String)
    (hx : ¬ (x = bk)) :
    dget (B ++ (bk, β) :: bs) x = dget (B ++ (bk, β') :: bs) x := by
  rcases hB : dget B x with _ | v
  · rw [dget_append_of_none _ hB, dget_append_of_none _ hB]
    rw [dget, dget]
    rw [if_neg (fun h : bk = x => hx h.symm), if_neg (fun h : bk = x => hx h.symm)]
  · rw [dget_append_of_some _ hB, dget_append_of_some _ hB]

theorem dget_mid_self {α : Type} (B bs : Dict α) (bk : String) (β : α)
    (hB : bk ∉ dkeys B) :
    dget (B ++ (bk, β) :: bs) bk = some β := by
  rw [dget_append_of_none _ (dget_none_of_not_mem_dkeys hB), dget, if_pos rfl]

/-- The block fold of the split stage preserves the Line/Block invariant,
given key discipline and fresh, duplicate-free generated segment ids. -/
theorem outer_split_fold (pageW pageH : Int) (wordsFor : CropRect → List (String × BBox)) :
    ∀ (bs : List (String × Block)) (B : Dict Block) (L : Dict Line),
      wfLayout (B ++ bs) L →
      (dkeys (B ++ bs)).Nodup →
      (∀ e ∈ B ++ bs, e.2.block_id = e.1) →
      (dkeys L).Nodup →
      (∀ g ∈ (bs.foldl (splitBlockStepG pageW pageH wordsFor) (B, L, [])).2.2, dget L g = none) →
      ((bs.foldl (splitBlockStepG pageW pageH wordsFor) (B, L, [])).2.2).Nodup →
      wfLayout (bs.foldl (splitBlockStep pageW pageH wordsFor) (B, L)).1
        (bs.foldl (splitBlockStep pageW pageH wordsFor) (B, L)).2 := by
  intro bs
  induction bs with
  | nil =>
    intro B L hwf _ _ _ _ _
    simpa using hwf
  | cons e bs' ih =>
    intro B L hwf hnd hkeyed hLnd hfreshTot hndTot
    simp only [List.foldl_cons] at hfreshTot hndTot ⊢
    rw [splitBlockStepG_proj pageW pageH wordsFor B L [] e] at hfreshTot hndTot
    have hknd : (dkeys B ++ e.1 :: dkeys bs').Nodup := by
      have h0 : dkeys (B ++ e :: bs') = dkeys B ++ e.1 :: dkeys bs' := by simp [dkeys]
      rw [h0] at hnd
      exact hnd
    have hBk_notB : e.1 ∉ dkeys B := fun hmem =>
      (List.nodup_append.mp hknd).2.2 hmem (List.mem_cons_self _ _)
    have hBk_notbs : e.1 ∉ dkeys bs' :=
      (List.nodup_cons.mp (List.nodup_append.mp hknd).2.1).1
    have hkd : e.2.block_id = e.1 :=
      hkeyed e (List.mem_append.mpr (Or.inr (List.mem_cons_self _ _)))
    by_cases hfont : e.2.font ≠ some Font.rashi
    · -- pass-through block
      have hSeq : splitBlockStep pageW pageH wordsFor (B, L) e = (B ++ [e], L) := by
        simp [splitBlockStep, hfont]
      have hγ : (splitBlockStepG pageW pageH wordsFor ([], L, []) e).2.2 = ([] : List String) := by
        simp [splitBlockStepG, hfont]
      rw [hSeq] at hfreshTot hndTot ⊢
      dsimp only at hfreshTot hndTot
      rw [splitFoldG_proj pageW pageH wordsFor bs'] at hfreshTot hndTot
      rw [hγ] at hfreshTot hndTot
      simp only [List.append_nil, List.nil_append] at hfreshTot hndTot
      have hassoc : B ++ [e] ++ bs' = B ++ e :: bs' := by simp
      refine ih (B ++ [e]) L ?_ ?_ ?_ hLnd hfreshTot hndTot
      · rw [hassoc]; exact hwf
      · rw [hassoc]; exact hnd
      · rw [hassoc]; exact hkeyed
    · -- rashi block
      rcases hr : e.2.line_ids.foldl
        (processRashiLine pageW pageH wordsFor e.2.block_id) (L, []) with ⟨L2, nl⟩
      have hSeq : splitBlockStep pageW pageH wordsFor (B, L) e =
          (B ++ [(e.1, { e.2 with line_ids := nl })], L2) := by
        simp only [splitBlockStep, if_neg hfont]
        rw [hr]
      have hγ : (splitBlockStepG pageW pageH wordsFor ([], L, []) e).2.2 =
          (e.2.line_ids.foldl
            (processRashiLineG pageW pageH wordsFor e.2.block_id) (L, [], [])).2.2 := by
        simp only [splitBlockStepG, if_neg hfont]
      rw [hSeq] at hfreshTot hndTot ⊢
      dsimp only at hfreshTot hndTot
      rw [splitFoldG_proj pageW pageH wordsFor bs'] at hfreshTot hndTot
      rw [hγ] at hfreshTot hndTot
      simp only [List.nil_append] at hfreshTot hndTot
      obtain ⟨hwf1, hwf2⟩ := hwf
      have hmemE : e ∈ B ++ e :: bs' := List.mem_append.mpr (Or.inr (List.mem_cons_self _ _))
      have hgetE : dget (B ++ e :: bs') e.1 = some e.2 := by
        have h1 : dget (B ++ (e.1, e.2) :: bs') e.1 = some e.2 := dget_mid_self B bs' e.1 e.2 hBk_notB
        exact h1
      have howned_inner : ∀ lid ∈ e.2.line_ids,
          ∃ ln, dget L lid = some ln ∧ ln.block_id = e.2.block_id := by
        intro lid hlid
        obtain ⟨ln, hget, hbid⟩ := hwf2 e hmemE lid hlid
        exact ⟨ln, hget, by rw [hkd]; exact hbid⟩
      have hlids_nd : e.2.line_ids.Nodup := by
        refine List.nodup_iff_count_le_one.mpr ?_
        intro a
        by_cases ha : a ∈ e.2.line_ids
        · obtain ⟨ln, hget, hbid⟩ := howned_inner a ha
          obtain ⟨blk, hblk, hcnt⟩ := hwf1 (a, ln) (dget_mem hget)
          have hbid' : (a, ln).2.block_id = e.1 := by
            show ln.block_id = e.1
            rw [hbid, hkd]
          rw [hbid'] at hblk
          rw [hgetE] at hblk
          injection hblk with hblk'
          rw [← hblk'] at hcnt
          exact Nat.le_of_eq hcnt
        · rw [List.count_eq_zero_of_not_mem ha]
          exact Nat.zero_le 1
      obtain ⟨c0, c1, c2, c3, c4, c5⟩ :=
        inner_split_fold pageW pageH wordsFor e.2.block_id e.2.line_ids L L2 nl
          ((e.2.line_ids.foldl
            (processRashiLineG pageW pageH wordsFor e.2.block_id) (L, [], [])).2.2)
          hr rfl hLnd hlids_nd howned_inner
          (fun g hg => hfreshTot g (List.mem_append.mpr (Or.inl hg)))
          hndTot.of_append_left
      have hδdisj := (List.nodup_append.mp hndTot).2.2
      have hnotlids_of_none : ∀ x, dget L x = none → x ∉ e.2.line_ids := by
        intro x hx hmem
        obtain ⟨ln, hget, _⟩ := howned_inner x hmem
        rw [hget] at hx
        exact Option.noConfusion hx
      have hB2assoc : (B ++ [(e.1, { e.2 with line_ids := nl })]) ++ bs' =
          B ++ (e.1, { e.2 with line_ids := nl }) :: bs' := by simp
      refine ih (B ++ [(e.1, { e.2 with line_ids := nl })]) L2 ?_ ?_ ?_ c0 ?_ ?_
      · -- invariant for the new state
        rw [hB2assoc]
        constructor
        · -- every line of L2 is owned exactly once
          intro e' he'
          have hLe : dget L2 e'.1 = some e'.2 := dget_of_mem_nodup c0 he'
          rcases c5 e'.1 e'.2 hLe with ⟨hnotl, hLold⟩ | hnl
          · obtain ⟨blk, hblk, hcnt⟩ := hwf1 e' (dget_mem hLold)
            by_cases hbid : e'.2.block_id = e.1
            · exfalso
              rw [hbid, hgetE] at hblk
              injection hblk with hblk'
              have hcnt' : e.2.line_ids.count e'.1 = 1 := by rw [hblk']; exact hcnt
              have hpos : 0 < e.2.line_ids.count e'.1 := by omega
              exact hnotl (List.count_pos_iff.mp hpos)
            · refine ⟨blk, ?_, hcnt⟩
              rw [← dget_mid_ne B bs' e.1 e.2 { e.2 with line_ids := nl } e'.2.block_id hbid]
              exact hblk
          · obtain ⟨ln', hget', hbid'⟩ := c2 e'.1 hnl
            rw [hLe] at hget'
            injection hget' with hln'
            refine ⟨{ e.2 with line_ids := nl }, ?_, ?_⟩
            · have hb : e'.2.block_id = e.1 := by rw [← hln'] at hbid'; rw [hbid', hkd]
              rw [hb]
              exact dget_mid_self B bs' e.1 _ hBk_notB
            · exact List.count_eq_one_of_mem c3 hnl
        · -- every listed id is an owned line
          intro b' hb' lid hlid
          rcases List.mem_append.mp hb' with hbB | hbR
          · have hne : ¬ (b'.1 = e.1) := fun h =>
              hBk_notB (h ▸ List.mem_map.mpr ⟨b', hbB, rfl⟩)
            obtain ⟨ln', hget, hbid⟩ :=
              hwf2 b' (List.mem_append.mpr (Or.inl hbB)) lid hlid
            refine ⟨ln', ?_, hbid⟩
            rw [c1 lid ?_ ?_]
            · exact hget
            · intro hmem
              obtain ⟨ln'', hget'', hbid''⟩ := howned_inner lid hmem
              rw [hget] at hget''
              injection hget'' with hln''
              exact hne (by rw [← hbid]; rw [hln'']; rw [hbid'', hkd])
            · intro hmem
              have hnone := hfreshTot lid (List.mem_append.mpr (Or.inl hmem))
              rw [hget] at hnone
              exact Option.noConfusion hnone
          · rcases List.mem_cons.mp hbR with hbE | hbT
            · subst hbE
              obtain ⟨ln', hget', hbid'⟩ := c2 lid hlid
              exact ⟨ln', hget', by rw [hbid', hkd]⟩
            · have hne : ¬ (b'.1 = e.1) := fun h =>
                hBk_notbs (h ▸ List.mem_map.mpr ⟨b', hbT, rfl⟩)
              obtain ⟨ln', hget, hbid⟩ :=
                hwf2 b' (List.mem_append.mpr (Or.inr (List.mem_cons_of_mem _ hbT))) lid hlid
              refine ⟨ln', ?_, hbid⟩
              rw [c1 lid ?_ ?_]
              · exact hget
              · intro hmem
                obtain ⟨ln'', hget'', hbid''⟩ := howned_inner lid hmem
                rw [hget] at hget''
                injection hget'' with hln''
                exact hne (by rw [← hbid]; rw [hln'']; rw [hbid'', hkd])
              · intro hmem
                have hnone := hfreshTot lid (List.mem_append.mpr (Or.inl hmem))
                rw [hget] at hnone
                exact Option.noConfusion hnone
      · -- keys unchanged
        rw [hB2assoc]
        have h0 : dkeys (B ++ (e.1, { e.2 with line_ids := nl }) :: bs') =
            dkeys B ++ e.1 :: dkeys bs' := by simp [dkeys]
        rw [h0]
        exact hknd
      · -- keyed
        rw [hB2assoc]
        intro b' hb'
        rcases List.mem_append.mp hb' with hbB | hbR
        · exact hkeyed b' (List.mem_append.mpr (Or.inl hbB))
        · rcases List.mem_cons.mp hbR with hbE | hbT
          · subst hbE
            exact hkd
          · exact hkeyed b' (List.mem_append.mpr (Or.inr (List.mem_cons_of_mem _ hbT)))
      · -- residual generated ids are fresh for the new line map
        intro g hg
        have hgL : dget L g = none := hfreshTot g (List.mem_append.mpr (Or.inr hg))
        rw [c1 g (hnotlids_of_none g hgL) (fun hmem => hδdisj hmem hg)]
        exact hgL
      · exact hndTot.of_append_right

/-- `split_rashi_lines` preserves the Line/Block invariant, for maps whose
keys are duplicate-free and key their own records, when the generated
sub-segment ids are fresh and pairwise distinct. -/
theorem split_wf (pageW pageH : Int) (wordsFor : CropRect → List (String × BBox))
    (blocks : Dict Block) (lines : Dict Line)
    (hwf : wfLayout blocks lines)
    (hbnd : (dkeys blocks).Nodup)
    (hkeyed : ∀ e ∈ blocks, e.2.block_id = e.1)
    (hlnd : (dkeys lines).Nodup)
    (hfresh : ∀ g ∈ (split_rashi_linesG pageW pageH wordsFor blocks lines).2.2,
      dget lines g = none)
    (hgnd : ((split_rashi_linesG pageW pageH wordsFor blocks lines).2.2).Nodup) :
    wfLayout (split_rashi_lines pageW pageH wordsFor blocks lines).1
      (split_rashi_lines pageW pageH wordsFor blocks lines).2 :=
  outer_split_fold pageW pageH wordsFor blocks [] lines hwf hbnd hkeyed hlnd hfresh hgnd

def c9rows : List TessRow :=
  [{ level := 2, block_num := 1, par_num := 0, line_num := 0,
     left := 0, top := 0, width := 100, height := 100 },
   { level := 4, block_num := 1, par_num := 1, line_num := 1,
     left := 0, top := 0, width := 100, height := 20 }]

def c9fblock : Block := { block_id := "b1", bbox := ⟨0, 0, 10, 10⟩, line_ids := ["l1"] }

def c9fline : Line := { line_id := "l1", block_id := "b1", bbox := ⟨0, 0, 10, 10⟩, order_hint := 0 }

def c9fblocks : Dict Block := [("b1", c9fblock)]

def c9flines : Dict Line := [("l1", c9fline)]

def c9block : Block :=
  { block_id := "br", bbox := ⟨50, 0, 100, 10⟩, line_ids := ["r1"], font := some Font.rashi }

def c9line : Line := { line_id := "r1", block_id := "br", bbox := ⟨50, 0, 100, 10⟩, order_hint := 0 }

def c9blocks : Dict Block := [("br", c9block)]

def c9lines : Dict Line := [("r1", c9line)]

def c9words : CropRect → List (String × BBox) := fun _ => [("x:", ⟨10, 0, 5, 5⟩)]

theorem c9fwf : wfLayout c9fblocks c9flines := by
  constructor
  · intro e he
    have he' : e = ("l1", c9fline) := List.mem_singleton.mp he
    subst he'
    exact ⟨c9fblock, by decide, by decide⟩
  · intro b hb lid hlid
    have hb' : b = ("b1", c9fblock) := List.mem_singleton.mp hb
    subst hb'
    have hlid' : lid = "l1" := List.mem_singleton.mp hlid
    subst hlid'
    exact ⟨c9fline, by decide, by decide⟩

theorem c9wf : wfLayout c9blocks c9lines := by
  constructor
  · intro e he
    have he' : e = ("r1", c9line) := List.mem_singleton.mp he
    subst he'
    exact ⟨c9block, by decide, by decide⟩
  · intro b hb lid hlid
    have hb' : b = ("br", c9block) := List.mem_singleton.mp hb
    subst hb'
    have hlid' : lid = "r1" := List.mem_singleton.mp hlid
    subst hlid'
    exact ⟨c9line, by decide, by decide⟩

/-- C9: the Line/Block referential invariant — every Line's `block_id` names
a Block in the map whose `line_ids` contains that Line's id exactly once, and
every id listed by a Block is an existing Line owned by it — is preserved by
each layout-mutating stage: by `extract_blocks_lines` whenever the OCR rows
carry pairwise-distinct line ids, by `filter_margin_blocks` on any
invariant-satisfying input, and by `split_rashi_lines` on key-disciplined
maps whose generated sub-segment ids are fresh and pairwise distinct. -/
theorem C9_referential_invariant_preserved
    (rows : List TessRow) (hrows : (rowLids rows).Nodup)
    (blocksF : Dict Block) (linesF : Dict Line) (hwfF : wfLayout blocksF linesF)
    (pageW pageH : Int) (wordsFor : CropRect → List (String × BBox))
    (blocks : Dict Block) (lines : Dict Line)
    (hwf : wfLayout blocks lines)
    (hbnd : (dkeys blocks).Nodup)
    (hkeyed : ∀ e ∈ blocks, e.2.block_id = e.1)
    (hlnd : (dkeys lines).Nodup)
    (hfresh : ∀ g ∈ (split_rashi_linesG pageW pageH wordsFor blocks lines).2.2,
      dget lines g = none)
    (hgnd : ((split_rashi_linesG pageW pageH wordsFor blocks lines).2.2).Nodup) :
    wfLayout (extract_blocks_lines rows).1 (extract_blocks_lines rows).2 ∧
    wfLayout (filter_margin_blocks blocksF linesF).1 (filter_margin_blocks blocksF linesF).2 ∧
    wfLayout (split_rashi_lines pageW pageH wordsFor blocks lines).1
      (split_rashi_lines pageW pageH wordsFor blocks lines).2 :=
  ⟨extract_wf rows hrows, filter_wf blocksF linesF hwfF,
   split_wf pageW pageH wordsFor blocks lines hwf hbnd hkeyed hlnd hfresh hgnd⟩

/-- C9 witness: a concrete OCR row list, a concrete filtered layout, and a
concrete rashi block whose single line is split into two sub-segments. -/
theorem C9_referential_invariant_preserved_witness :
    (rowLids c9rows).Nodup ∧
    wfLayout c9fblocks c9flines ∧
    wfLayout c9blocks c9lines ∧
    (wfLayout (extract_blocks_lines c9rows).1 (extract_blocks_lines c9rows).2 ∧
     wfLayout (filter_margin_blocks c9fblocks c9flines).1
       (filter_margin_blocks c9fblocks c9flines).2 ∧
     wfLayout (split_rashi_lines 200 20 c9words c9blocks c9lines).1
       (split_rashi_lines 200 20 c9words c9blocks c9lines).2) :=
  ⟨by decide, c9fwf, c9wf,
   C9_referential_invariant_preserved c9rows (by decide) c9fblocks c9flines c9fwf
     200 20 c9words c9blocks c9lines c9wf (by decide) (by decide) (by decide)
     (by decide) (by decide)⟩
